import Mathlib

/-!
Verification development for the transcript-analysis core of the
`nextjs-ai-chatbot-yt-index` repository: the segmenter
(`src/yt-index/utils/segments.ts`) and the keyword extractor
(`src/yt-index/utils/keywords.ts`, plus the dictionary-enabled revision of the
same module).  JavaScript strings are embedded as `List Char`, numbers carrying
scores as `ℚ`, and JavaScript `Map`s as insertion-ordered association lists.
External collaborators (the NER model, network fetches, the file system) are
function parameters of the embedded pipelines.
-/

namespace YtIndex

/-- JavaScript strings, embedded character by character. -/
abbrev JSStr := List Char

/-- Conversion from Lean string literals to the embedding. -/
def str (s : String) : JSStr := s.data

/-- Whitespace, as matched by the regex class backslash-s on the ASCII inputs
this development deals with. -/
def jsIsSpace (c : Char) : Bool :=
  c = ' ' || c = '\t' || c = '\n' || c = '\r' || c = '\x0b' || c = '\x0c'

/-- Word characters, the regex class backslash-w. -/
def isWordChar (c : Char) : Bool :=
  ('a' ≤ c && c ≤ 'z') || ('A' ≤ c && c ≤ 'Z') || ('0' ≤ c && c ≤ '9') || c = '_'

/-- The segment delimiters of `extractSegments`
(`[".", "!", "?", ";", ":", "\n", "—", "–", "…"]`). -/
def isDelim (c : Char) : Bool :=
  c = '.' || c = '!' || c = '?' || c = ';' || c = ':' || c = '\n' ||
  c = '—' || c = '–' || c = '…'

/-- The sentence-ending punctuation class `[.!?]` used by
`SENTENCE_SPLIT_REGEX` and by the truncation step of `processLongTranscript`. -/
def isSentPunct (c : Char) : Bool :=
  (c = '.' || c = '!') || c = '?'

mutual

/-- `String.prototype.split` on a regex `[class]+`: accumulates the current
piece (reversed in `acc`) until a delimiter is reached. -/
def splitRunsAux (p : Char → Bool) : List Char → List Char → List (List Char)
  | acc, [] => [acc.reverse]
  | acc, c :: rest =>
    if p c then acc.reverse :: splitRunsGo p rest
    else splitRunsAux p (c :: acc) rest

/-- State inside a maximal run of delimiters: consecutive delimiters collapse
to one split point; a trailing run yields a trailing empty piece. -/
def splitRunsGo (p : Char → Bool) : List Char → List (List Char)
  | [] => [[]]
  | c :: rest => if p c then splitRunsGo p rest else splitRunsAux p [c] rest

end

/-- `s.split(/[class]+/)` for the character class decided by `p`. -/
def splitRuns (p : Char → Bool) (s : JSStr) : List JSStr :=
  splitRunsAux p [] s

/-- `s.split(",")`: split on every single occurrence of a character
(no collapsing of runs, unlike `splitRuns`). -/
def splitChar (d : Char) : JSStr → List JSStr
  | [] => [[]]
  | c :: rest =>
    if c = d then [] :: splitChar d rest
    else
      match splitChar d rest with
      | [] => [[c]]
      | piece :: pieces => (c :: piece) :: pieces

/-- Remove trailing whitespace: reverse, drop the leading run, reverse back. -/
def dropTrailingWS (s : JSStr) : JSStr :=
  (s.reverse.dropWhile jsIsSpace).reverse

/-- `String.prototype.trim`. -/
def trim (s : JSStr) : JSStr :=
  dropTrailingWS (s.dropWhile jsIsSpace)

/-- `replace(/\s+/g, " ")`, with `prevSpace` recording whether the previous
character was part of a whitespace run already replaced. -/
def collapseWSAux : Bool → List Char → List Char
  | _, [] => []
  | prevSpace, c :: rest =>
    if jsIsSpace c then
      if prevSpace then collapseWSAux true rest
      else ' ' :: collapseWSAux true rest
    else c :: collapseWSAux false rest

/-- Modelled from the spec: `REGEX_PATTERNS.WHITESPACE` of the constants module
(not present in the sources) — step 3 of §4.1: "collapse any run of whitespace
to a single space". -/
def collapseWS (s : JSStr) : JSStr := collapseWSAux false s

/-- Modelled from the spec: `REGEX_PATTERNS.PUNCTUATION_ONLY` of the constants
module (not present in the sources) — step 4 of §4.1: "drop any piece that is
entirely non-word non-whitespace characters (pure punctuation)". -/
def punctuationOnly (s : JSStr) : Bool :=
  !s.isEmpty && s.all (fun c => !isWordChar c && !jsIsSpace c)

/-- Modelled from the spec: `REGEX_PATTERNS.SENTENCE_END` of the constants
module (not present in the sources) — step 5 of §4.1: a piece "already ends in
`.`, `!`, or `?`". -/
def sentenceEnd (s : JSStr) : Bool :=
  match s.getLast? with
  | some c => isSentPunct c
  | none => false

/-- `extractSegments` of `src/yt-index/utils/segments.ts`.  The guard
`!transcript || transcript.trim().length === 0` is the single condition
`trim = []` (the empty string also trims to empty). -/
def extractSegments (transcript : JSStr) : List JSStr :=
  if trim transcript = [] then []
  else
    let segments := ((splitRuns isDelim transcript).map trim).filter
      (fun s => !s.isEmpty)
    let commaSegments := segments.flatMap (fun seg =>
      if 100 < seg.length then
        ((splitChar ',' seg).map trim).filter (fun s => !s.isEmpty)
      else [seg])
    ((commaSegments.map (fun s => trim (collapseWS s))).filter
        (fun s => decide (10 ≤ s.length) && !punctuationOnly s)).map
      (fun s => if sentenceEnd s then s else s ++ ['.'])

/-! ## Keyword extractor: shared basics -/

/-- ASCII lowercasing, `String.prototype.toLowerCase` on the ASCII inputs the
repository feeds it (Lean's `Char.toLower` lowers exactly `A`-`Z`). -/
def toLowerStr (s : JSStr) : JSStr := s.map Char.toLower

/-- `word.charAt(0).toUpperCase() + word.slice(1)`. -/
def capitalize : JSStr → JSStr
  | [] => []
  | c :: rest => c.toUpper :: rest

/-- `needle` starts `hay`. -/
def startsWith : JSStr → JSStr → Bool
  | _, [] => true
  | [], _ :: _ => false
  | c :: h, d :: n => c = d && startsWith h n

/-- `hay.includes(needle)`: contiguous substring test. -/
def containsSub (hay needle : JSStr) : Bool :=
  match hay with
  | [] => startsWith [] needle
  | _ :: rest => startsWith hay needle || containsSub rest needle

/-- `word.replace(/[^\w\s]/g, " ")` (`PUNCTUATION_REGEX` of keywords.ts):
every character that is neither a word character nor whitespace becomes a
space. -/
def replacePunct (s : JSStr) : JSStr :=
  s.map (fun c => if !isWordChar c && !jsIsSpace c then ' ' else c)

/-- Score multiplication.  Written through `mkRat` so that concrete runs of
the embedded pipeline reduce inside the kernel; `qmul_eq` below identifies it
with rational multiplication. -/
def qmul (a b : ℚ) : ℚ := mkRat (a.num * b.num) (a.den * b.den)

/-- Score addition through `mkRat`; equals rational addition by `qadd_eq`. -/
def qadd (a b : ℚ) : ℚ := mkRat (a.num * b.den + b.num * a.den) (a.den * b.den)

/-- Score division by a natural number (the only divisions the extractor
performs) through `mkRat`; equals rational division by `qdivN_eq`. -/
def qdivN (a : ℚ) (n : ℕ) : ℚ := mkRat a.num (a.den * n)

theorem qmul_eq (a b : ℚ) : qmul a b = a * b := by
  unfold qmul
  rw [Rat.mkRat_eq_div]
  push_cast
  conv_rhs => rw [← Rat.num_div_den a, ← Rat.num_div_den b]
  rw [div_mul_div_comm]

theorem qadd_eq (a b : ℚ) : qadd a b = a + b := by
  unfold qadd
  rw [Rat.mkRat_eq_div]
  push_cast
  conv_rhs => rw [← Rat.num_div_den a, ← Rat.num_div_den b]
  rw [div_add_div _ _ (by positivity) (by positivity)]
  ring_nf

theorem qdivN_eq (a : ℚ) (n : ℕ) : qdivN a n = a / (n : ℚ) := by
  unfold qdivN
  rw [Rat.mkRat_eq_div]
  push_cast
  rw [← div_div]
  rw [Rat.num_div_den a]

/-- A keyword as produced by the extractor (`Keyword` type of keywords.ts). -/
structure Keyword where
  word : JSStr
  entity : JSStr
  score : ℚ
  sources : Option (List JSStr)
deriving DecidableEq, Repr

instance : Inhabited Keyword := ⟨⟨[], [], 0, none⟩⟩

/-- JavaScript `Map` over string keys: insertion-ordered association list.
`set` on a present key replaces the value in place. -/
def mapSet {α : Type} : List (JSStr × α) → JSStr → α → List (JSStr × α)
  | [], k, v => [(k, v)]
  | (k', v') :: rest, k, v =>
    if k' = k then (k, v) :: rest else (k', v') :: mapSet rest k v

/-- `Map.prototype.get` (`undefined` becomes `none`). -/
def mapGet {α : Type} : List (JSStr × α) → JSStr → Option α
  | [], _ => none
  | (k', v') :: rest, k => if k' = k then some v' else mapGet rest k

/-- Stable insertion of `a`: it lands before the first element `x` with
`lt x a`, i.e. after every earlier element that does not compare strictly
below it. -/
def insertBy {α : Type} (lt : α → α → Bool) (a : α) : List α → List α
  | [] => [a]
  | x :: xs => if lt x a then a :: x :: xs else x :: insertBy lt a xs

/-- JavaScript `array.sort(cmp)` is stable; a stable sort is modelled by
left-to-right stable insertion (which reduces inside the kernel, unlike the
library merge sort). -/
def stableSortBy {α : Type} (lt : α → α → Bool) (l : List α) : List α :=
  l.foldl (fun acc a => insertBy lt a acc) []

/-- `array.sort((a, b) => b.score - a.score)`: stable descending sort by
score. -/
def sortByScoreDesc (l : List Keyword) : List Keyword :=
  stableSortBy (fun x k => decide (x.score < k.score)) l

/-- `mapEntityType` of keywords.ts. -/
def mapEntityType (e : JSStr) : JSStr :=
  if e = str "B-PER" || e = str "I-PER" then str "PERSON"
  else if e = str "B-ORG" || e = str "I-ORG" then str "ORG"
  else if e = str "B-LOC" || e = str "I-LOC" then str "LOCATION"
  else if e = str "B-MISC" || e = str "I-MISC" then str "MISC"
  else str "KEYWORD"

/-- The stop-word set of `isStopWord` (both revisions use the same list). -/
def stopWords : List JSStr :=
  [str "the", str "and", str "or", str "but", str "in", str "on", str "at",
   str "to", str "for", str "of", str "with", str "by", str "from", str "up",
   str "about", str "into", str "through", str "during", str "before",
   str "after", str "above", str "below", str "between", str "among",
   str "this", str "that", str "these", str "those", str "i", str "you",
   str "he", str "she", str "it", str "we", str "they", str "me", str "him",
   str "her", str "us", str "them", str "my", str "your", str "his",
   str "its", str "our", str "their", str "will", str "would", str "could",
   str "should", str "may", str "might", str "can", str "must", str "shall",
   str "have", str "has", str "had", str "do", str "does", str "did",
   str "am", str "is", str "are", str "was", str "were", str "be", str "been",
   str "being", str "get", str "got", str "gonna", str "never", str "always",
   str "sometimes", str "often", str "usually", str "really", str "very",
   str "quite", str "just", str "only", str "also", str "too", str "either",
   str "neither", str "both", str "all", str "some", str "any", str "every",
   str "each"]

/-- `isStopWord` of keywords.ts. -/
def isStopWord (w : JSStr) : Bool := stopWords.contains (toLowerStr w)

/-- The curated technical-term list of `getTechnicalTermScore`
(base revision, keywords.ts). -/
def technicalTerms : List JSStr :=
  [str "machine", str "learning", str "artificial", str "intelligence",
   str "neural", str "networks", str "deep", str "data", str "science",
   str "python", str "javascript", str "typescript", str "react", str "node",
   str "tensorflow", str "pytorch", str "api", str "database", str "algorithm",
   str "programming", str "software", str "development", str "tutorial",
   str "tutorials", str "coding", str "code", str "cryptocurrency",
   str "bitcoin", str "ethereum", str "blockchain", str "investment",
   str "financial", str "market", str "analysis", str "gaming", str "game",
   str "gameplay", str "strategy", str "strategies"]

/-- `getTechnicalTermScore`: fixed boost 0.8 on a substring match. -/
def getTechnicalTermScore (w : JSStr) : ℚ :=
  if technicalTerms.any (fun term => containsSub w term) then mkRat 4 5 else 0

/-- The curated domain-term list of `getDomainSpecificScore`. -/
def domainTerms : List JSStr :=
  [str "tutorial", str "guide", str "tips", str "tricks", str "hacks",
   str "secrets", str "methods", str "techniques", str "advanced",
   str "beginner", str "intermediate", str "expert", str "professional",
   str "comprehensive", str "practical", str "hands-on", str "step-by-step",
   str "detailed", str "in-depth", str "complete"]

/-- `getDomainSpecificScore`: fixed boost 0.6 on a substring match. -/
def getDomainSpecificScore (w : JSStr) : ℚ :=
  if domainTerms.any (fun term => containsSub w term) then mkRat 3 5 else 0

/-- `keyword.reduce` grouping of `groupKeywordsByType`: a JavaScript record is
an insertion-ordered mapping from entity category to keyword bucket. -/
def stripBIO (e : JSStr) : JSStr :=
  match e with
  | c :: '-' :: rest => if c = 'B' || c = 'I' then rest else e
  | _ => e

/-- `groupKeywordsByType` of keywords.ts: buckets by BIO-stripped entity
category, preserving relative order. -/
def groupKeywordsByType (ks : List Keyword) : List (JSStr × List Keyword) :=
  ks.foldl (fun acc k =>
    let ty := stripBIO k.entity
    match mapGet acc ty with
    | some bucket => mapSet acc ty (bucket ++ [k])
    | none => mapSet acc ty [k]) []

/-- The merge key of `combineKeywords`: `keyword.word.toLowerCase()`. -/
def keyOf (k : Keyword) : JSStr := toLowerStr k.word

/-- Unconditional `keywordMap.set(key(k), k)`. -/
def insertKey (key : Keyword → JSStr) (m : List (JSStr × Keyword)) (k : Keyword) :
    List (JSStr × Keyword) :=
  mapSet m (key k) k

/-- `if (!map.has(key) || map.get(key).score < k.score) map.set(key, k)`:
the conditional overwrite both deduplications and the merge use. -/
def upsertHigher (key : Keyword → JSStr) (m : List (JSStr × Keyword))
    (k : Keyword) : List (JSStr × Keyword) :=
  match mapGet m (key k) with
  | none => mapSet m (key k) k
  | some existing =>
    if existing.score < k.score then mapSet m (key k) k else m

/-- `combineKeywords` (identical in both revisions): a map keyed by lowercased
word, priority list inserted first, second list overriding only on strictly
greater score, values sorted descending by score. -/
def combineKeywords (nerKeywords generalKeywords : List Keyword) : List Keyword :=
  sortByScoreDesc
    ((generalKeywords.foldl (upsertHigher keyOf)
      (nerKeywords.foldl (insertKey keyOf) [])).map (·.2))

/-! ## Long-transcript handling (`processLongTranscript`, base revision) -/

/-- The `Math.max(lastIndexOf...)` family: position of the last character of a
class, as an option. -/
def lastPosP (p : Char → Bool) : JSStr → Option ℕ
  | [] => none
  | c :: rest =>
    match lastPosP p rest with
    | some i => some (i + 1)
    | none => if p c then some 0 else none

/-- JavaScript `lastIndexOf` result convention: `-1` when absent. -/
def optIdx : Option ℕ → ℤ
  | some i => (i : ℤ)
  | none => -1

/-- `s.lastIndexOf(c)` for a one-character needle. -/
def jsLastIndexOf (s : JSStr) (c : Char) : ℤ :=
  optIdx (lastPosP (fun d => d = c) s)

/-- The sentence-accumulation loop of `processLongTranscript`: state is
`(chunks so far, current chunk)`. -/
def chunkStep (acc : List JSStr × JSStr) (sentence : JSStr) : List JSStr × JSStr :=
  let (chunks, cur) := acc
  if 10000 < cur.length + sentence.length then
    (if trim cur = [] then chunks else chunks ++ [trim cur], sentence)
  else
    (chunks, if cur = [] then sentence else cur ++ ' ' :: sentence)

/-- Sentences of the long transcript: split on `/[.!?]+/`, keep pieces with
non-empty trim. -/
def pltSentences (t : JSStr) : List JSStr :=
  (splitRuns isSentPunct t).filter (fun s => !(trim s).isEmpty)

/-- The chunk list built by `processLongTranscript` (the final
`currentChunk.trim()` push included). -/
def pltChunks (t : JSStr) : List JSStr :=
  let st := (pltSentences t).foldl chunkStep ([], [])
  if trim st.2 = [] then st.1 else st.1 ++ [trim st.2]

/-- The sampling loop: `for (i = 0; i < chunks.length && sampled.length <
maxChunks; i += step)`, with `maxChunks = 5`. -/
def sampleIdx (chunks : List JSStr) (step : ℕ) (i : ℕ) (acc : List JSStr) :
    List JSStr :=
  if h : i < chunks.length ∧ acc.length < 5 then
    sampleIdx chunks step (i + step) (acc ++ [chunks.get ⟨i, h.1⟩])
  else acc
termination_by 5 - acc.length
decreasing_by
  simp only [List.length_append, List.length_cons, List.length_nil]
  omega

/-- The chunk sequence whose space-joined concatenation is sampled: all chunks
when at most `maxChunks = 5`, otherwise every `step`-th chunk plus the final
chunk (unless an equal chunk was already sampled). -/
def pltSampledChunks (t : JSStr) : List JSStr :=
  let chunks := pltChunks t
  if chunks.length ≤ 5 then chunks
  else
    let step := chunks.length / 5
    let base := sampleIdx chunks step 0 []
    match chunks.getLast? with
    | some lastChunk =>
      if lastChunk ≠ [] ∧ lastChunk ∉ base then base ++ [lastChunk]
      else base
    | none => base

/-- `chunks.join(" ")` / `sampledChunks.join(" ")`. -/
def joinSpace (l : List JSStr) : JSStr := (l.intersperse [' ']).flatten

/-- The sampled text before the final truncation step. -/
def pltSampled (t : JSStr) : JSStr := joinSpace (pltSampledChunks t)

/-- `processLongTranscript` of the base revision of keywords.ts.  In floating
point `MAX_LENGTH * 0.8` is a hair above `40000`, so the comparison
`lastSentenceEnd > MAX_LENGTH * 0.8` on integer indices is exactly
`40000 < lastSentenceEnd`. -/
def processLongTranscript (t : JSStr) : JSStr :=
  if t.length ≤ 50000 then t
  else
    let sampled := pltSampled t
    if sampled.length ≤ 50000 then sampled
    else
      let s := sampled.take 50000
      let lastEnd := max (max (jsLastIndexOf s '.') (jsLastIndexOf s '!'))
        (jsLastIndexOf s '?')
      if 40000 < lastEnd then s.take (lastEnd.toNat + 1) else s

/-! ## Base-revision extractors (keywords.ts) -/

/-- One raw result of the external NER collaborator: `{ word, entity, score }`. -/
structure RawNER where
  word : JSStr
  entity : JSStr
  score : ℚ
deriving DecidableEq, Repr

/-- `transcript.slice(i, i + chunkSize)` chunking, structurally recursive on a
fuel initialised with the length: every step consumes at least one character,
so the fuel (which shrinks by exactly one) never runs out before the string
does and the `0`-fuel fallback is unreachable. -/
def chunksOfGo (n : ℕ) : ℕ → JSStr → List JSStr
  | _, [] => []
  | 0, c :: rest => [c :: rest]
  | fuel + 1, c :: rest => (c :: rest.take n) :: chunksOfGo n fuel (rest.drop n)

/-- `n + 1` characters per chunk (call sites use `n = 499` and `n = 999` for
the 500- and 1000-character chunks of the two revisions). -/
def chunksOf (n : ℕ) (s : JSStr) : List JSStr := chunksOfGo n s.length s

/-- The keyword-map deduplication shared by both `extractNamedEntities`
revisions: keyed by lowercased word and entity, keeping the strictly higher
score. -/
def dedupByKey (key : Keyword → JSStr) (ks : List Keyword) : List Keyword :=
  (ks.foldl (upsertHigher key) []).map (·.2)

/-- The dedup key of `extractNamedEntities`:
`` `${word.toLowerCase()}_${entity}` ``. -/
def nerKey (k : Keyword) : JSStr := toLowerStr k.word ++ '_' :: k.entity

/-- `extractNamedEntities` of the base revision: 500-character chunks, chunks
with empty trim skipped, the external model `ner` applied per chunk (a chunk
whose call throws contributes nothing, which the parameter models by returning
`[]`), confidence filter `score > 0.3`, scores capped at 1, sources `["NER"]`. -/
def extractNamedEntities (ner : JSStr → List RawNER) (t : JSStr) : List Keyword :=
  let chunks := chunksOf 499 t
  let allResults := chunks.foldl
    (fun acc ch => if trim ch = [] then acc else acc ++ ner ch) []
  let rawKeywords := (allResults.filter
      (fun r => decide (mkRat 3 10 < r.score))).map
    (fun r => Keyword.mk r.word (mapEntityType r.entity) (min r.score 1)
      (some [str "NER"]))
  sortByScoreDesc (dedupByKey nerKey rawKeywords)

/-- The word list feeding frequency analysis: lowercase, strip punctuation,
split on whitespace, keep words longer than 2 that are not stop words. -/
def generalWords (t : JSStr) : List JSStr :=
  (((splitRuns jsIsSpace (replacePunct (toLowerStr t))).filter
      (fun w => 2 < w.length)).filter (fun w => !isStopWord w))

/-- Word-frequency counting with a JavaScript `Map` (insertion order). -/
def countWords (ws : List JSStr) : List (JSStr × ℕ) :=
  ws.foldl (fun m w =>
    match mapGet m w with
    | some n => mapSet m w (n + 1)
    | none => mapSet m w 1) []

/-- `extractGeneralKeywords` of the base revision: weighted sum of frequency,
length, technical and domain boosts; threshold `score > 0.05`; capitalized,
tagged `KEYWORD`, sources `["General"]`; top 25 by descending score. -/
def extractGeneralKeywords (t : JSStr) : List Keyword :=
  let words := generalWords t
  let keywords := (countWords words).filterMap (fun wc =>
    let frequency : ℚ := qdivN (wc.2 : ℚ) words.length
    let lengthScore : ℚ := min (qdivN (wc.1.length : ℚ) 12) 1
    let score := qadd (qadd (qadd (qmul frequency (mkRat 2 5))
      (qmul lengthScore (mkRat 3 20)))
      (qmul (getTechnicalTermScore wc.1) (mkRat 3 20)))
      (qmul (getDomainSpecificScore wc.1) (mkRat 1 10))
    if mkRat 1 20 < score then
      some (Keyword.mk (capitalize wc.1) (str "KEYWORD") (min score 1)
        (some [str "General"]))
    else none)
  (sortByScoreDesc keywords).take 25

/-- A Google Knowledge Graph entity as mapped by
`fetchGoogleKnowledgeEntities` (missing fields become empty strings). -/
structure KGEntity where
  name : JSStr
  etype : JSStr
  description : JSStr
  detailedDescription : JSStr
deriving DecidableEq, Repr

/-- `extractPotentialEntityTerms`: words of length at least 4, not stop words,
purely alphabetic; ten most frequent (stable descending sort by count). -/
def extractPotentialEntityTerms (t : JSStr) : List JSStr :=
  let words := (((splitRuns jsIsSpace (replacePunct (toLowerStr t))).filter
      (fun w => 4 ≤ w.length)).filter (fun w => !isStopWord w)).filter
    (fun w => !w.isEmpty && w.all (fun c => 'a' ≤ c && c ≤ 'z'))
  ((stableSortBy (fun x a => decide (x.2 < a.2)) (countWords words)).take 10).map
    (·.1)

/-- `calculateKnowledgeGraphScore`: base 0.7, +0.1 for a detailed description
longer than 100 characters, +0.1 for high-value entity types, capped at 1. -/
def calculateKnowledgeGraphScore (e : KGEntity) : ℚ :=
  min (qadd (qadd (mkRat 7 10)
    (if 100 < e.detailedDescription.length then mkRat 1 10 else 0))
    (if e.etype ∈ [str "Person", str "Organization", str "Place", str "Event",
        str "CreativeWork"] then mkRat 1 10 else 0)) 1

/-- `extractKnowledgeGraphKeywords`: disabled (or missing API key) yields `[]`;
otherwise up to five candidate terms are looked up via the external `fetch`
collaborator (a failed lookup contributes `[]`), and each returned entity whose
name occurs in the lowercased transcript yields a keyword. -/
def extractKnowledgeGraphKeywords (kgOn : Bool) (fetch : JSStr → List KGEntity)
    (t : JSStr) : List Keyword :=
  if !kgOn then []
  else
    let potentialTerms := extractPotentialEntityTerms t
    if potentialTerms.isEmpty then []
    else
      sortByScoreDesc (((potentialTerms.take 5).map (fun term =>
        (fetch term).filterMap (fun e =>
          if containsSub (toLowerStr t) (toLowerStr e.name) then
            some (Keyword.mk e.name
              (if e.etype = [] then str "KNOWLEDGE_GRAPH" else e.etype)
              (calculateKnowledgeGraphScore e)
              (some [str "Google Knowledge Graph"]))
          else none))).flatten)

/-- `KeywordExtractionResult` of keywords.ts. -/
structure KeywordExtractionResult where
  keywords : List Keyword
  groupedKeywords : List (JSStr × List Keyword)
  totalCount : ℕ
  dictionariesUsed : List JSStr
deriving DecidableEq, Repr

/-- `extractKeywordsFromTranscript` of the base revision: long-transcript
preprocessing, the three extraction passes, the pairwise merge, grouping, and
`dictionariesUsed` recording the knowledge-graph source iff it contributed. -/
def extractKeywordsFromTranscript (ner : JSStr → List RawNER) (kgOn : Bool)
    (fetch : JSStr → List KGEntity) (transcript : JSStr) :
    KeywordExtractionResult :=
  let processed := processLongTranscript transcript
  let nerKeywords := extractNamedEntities ner processed
  let generalKeywords := extractGeneralKeywords processed
  let knowledgeGraphKeywords := extractKnowledgeGraphKeywords kgOn fetch processed
  let combined := combineKeywords (combineKeywords nerKeywords generalKeywords)
    knowledgeGraphKeywords
  KeywordExtractionResult.mk combined (groupKeywordsByType combined)
    combined.length
    (if knowledgeGraphKeywords.length > 0 then [str "Google Knowledge Graph"]
     else [])

/-! ## Dictionary-enabled revision (the second revision of keywords.ts) -/

/-- The `DictionarySource` tagged union.  JavaScript values are untyped at
runtime: the `default` branch of `loadDictionary` handles a value whose `type`
tag is outside the static union (reachable through a type assertion), which the
`other` constructor represents. -/
inductive DictionarySource where
  | file (path : JSStr) (weight : Option ℚ)
  | url (u : JSStr) (weight : Option ℚ)
  | inlineTerms (terms : List JSStr) (weight : Option ℚ)
  | api (endpoint : JSStr) (weight : Option ℚ)
  | urbanDictionary (weight : Option ℚ)
  | wikipedia (weight : Option ℚ)
  | wordnet (weight : Option ℚ)
  | googleKnowledge (weight : Option ℚ)
  | other (tag : JSStr) (weight : Option ℚ)
deriving DecidableEq, Repr

/-- The `weight` field of a source. -/
def DictionarySource.weightOf : DictionarySource → Option ℚ
  | .file _ w | .url _ w | .inlineTerms _ w | .api _ w | .urbanDictionary w
  | .wikipedia w | .wordnet w | .googleKnowledge w | .other _ w => w

/-- `source.weight || 1.0`: `undefined` and `0` are falsy. -/
def jsWeightOr1 : Option ℚ → ℚ
  | some w => if w = 0 then 1 else w
  | none => 1

/-- A loaded dictionary.  `terms` embeds the JavaScript `Set<string>`:
insertion-ordered and duplicate-free. -/
structure Dictionary where
  name : JSStr
  terms : List JSStr
  weight : ℚ
deriving DecidableEq, Repr

/-- `DictionaryConfig` of the dictionary revision. -/
structure DictionaryConfig where
  dictionaries : List DictionarySource
  fallbackWeight : Option ℚ
deriving DecidableEq, Repr

/-- `new Set(terms)`: deduplicate keeping first occurrences. -/
def dedupKeepFirst : List JSStr → List JSStr
  | [] => []
  | t :: rest =>
    if (dedupKeepFirst rest).contains t then t :: (dedupKeepFirst rest).erase t
    else t :: dedupKeepFirst rest

/-- `content.split("\n")` then trim, lowercase, drop empties — the file branch
of `loadDictionary`. -/
def fileTerms (content : JSStr) : List JSStr :=
  ((splitChar '\n' content).map (fun t => toLowerStr (trim t))).filter
    (fun t => !t.isEmpty)

/-- The body of `loadDictionary`'s `try` block: the `switch` over the source
type, producing a name and raw term list, or throwing for an unknown type.
`readFile` stands for `readFileSync` (with path resolution); `none` is a
thrown filesystem error. -/
def loadDictionaryBody (readFile : JSStr → Option JSStr) :
    DictionarySource → Except JSStr (JSStr × List JSStr)
  | .file path _ =>
    match readFile path with
    | some content => .ok (str "File: " ++ path, fileTerms content)
    | none => .error (str "read failure: " ++ path)
  | .url u _ => .ok (str "URL: " ++ u, [])
  | .api endpoint _ => .ok (str "API: " ++ endpoint, [])
  | .inlineTerms terms _ => .ok (str "Inline Dictionary", terms.map toLowerStr)
  | .urbanDictionary _ => .ok (str "Urban Dictionary", [])
  | .wikipedia _ => .ok (str "Wikipedia", [])
  | .wordnet _ => .ok (str "WordNet", [])
  | .googleKnowledge _ => .ok (str "Google Knowledge Graph", [])
  | .other tag _ => .error (str "Unsupported dictionary source type: " ++ tag)

/-- `loadDictionary`: the whole `switch` sits inside `try { ... } catch`, so
the function always resolves — an error (unknown type, file failure) is caught
and becomes the empty zero-weight `Error` dictionary.  The process-lifetime
cache is transparent here: it only ever returns the value computed by this
same function. -/
def loadDictionary (readFile : JSStr → Option JSStr) (source : DictionarySource) :
    Dictionary :=
  match loadDictionaryBody readFile source with
  | .ok (name, terms) =>
    Dictionary.mk name (dedupKeepFirst terms) (jsWeightOr1 source.weightOf)
  | .error _ => Dictionary.mk (str "Error") [] 0

/-- `loadDictionaries`: loads each source and keeps dictionaries with at least
one term (`terms.size > 0`); the surrounding `catch` is dead because
`loadDictionary` never rejects. -/
def loadDictionaries (readFile : JSStr → Option JSStr) (config : DictionaryConfig) :
    List Dictionary :=
  (config.dictionaries.map (loadDictionary readFile)).filter
    (fun d => !d.terms.isEmpty)

/-- The static dictionaries of a call: loaded from the config when one is
passed (`if (dictionaryConfig) dictionaries = await loadDictionaries(...)`). -/
def staticDictsOf (readFile : JSStr → Option JSStr) :
    Option DictionaryConfig → List Dictionary
  | some c => loadDictionaries readFile c
  | none => []

/-- `getDictionaryScore`: additive weight of every dictionary containing the
lowercased word, with the contributing dictionary names. -/
def getDictionaryScore (word : JSStr) (dictionaries : List Dictionary) :
    ℚ × List JSStr :=
  dictionaries.foldl (fun acc d =>
    if d.terms.contains (toLowerStr word) then
      (qadd acc.1 d.weight, acc.2 ++ [d.name])
    else acc) (0, [])

/-- `extractNamedEntities` of the dictionary revision: 1000-character chunks,
no per-chunk catch, dictionary boost `+ dictScore * 0.3` capped at 1, sources
only when a dictionary contributed. -/
def extractNamedEntitiesDict (ner : JSStr → List RawNER)
    (dictionaries : List Dictionary) (t : JSStr) : List Keyword :=
  let chunks := chunksOf 999 t
  let allResults := chunks.foldl
    (fun acc ch => if ch.isEmpty then acc else acc ++ ner ch) []
  let rawKeywords := (allResults.filter
      (fun r => decide (mkRat 3 10 < r.score))).map
    (fun r =>
      let dictResult := getDictionaryScore r.word dictionaries
      Keyword.mk r.word (mapEntityType r.entity)
        (min (qadd r.score (qmul dictResult.1 (mkRat 3 10))) 1)
        (if dictResult.2.isEmpty then none else some dictResult.2))
  sortByScoreDesc (dedupByKey nerKey rawKeywords)

/-- `extractGeneralKeywords` of the dictionary revision: the base formula plus
a dictionary boost `dictScore * 0.4`, sources the contributing dictionary
names (or absent). -/
def extractGeneralKeywordsDict (dictionaries : List Dictionary) (t : JSStr) :
    List Keyword :=
  let words := generalWords t
  let keywords := (countWords words).filterMap (fun wc =>
    let frequency : ℚ := qdivN (wc.2 : ℚ) words.length
    let lengthScore : ℚ := min (qdivN (wc.1.length : ℚ) 12) 1
    let dictResult := getDictionaryScore wc.1 dictionaries
    let score := qadd (qadd (qadd (qadd (qmul frequency (mkRat 2 5))
      (qmul lengthScore (mkRat 3 20)))
      (qmul (getTechnicalTermScore wc.1) (mkRat 3 20)))
      (qmul (getDomainSpecificScore wc.1) (mkRat 1 10)))
      (qmul dictResult.1 (mkRat 2 5))
    if mkRat 1 20 < score then
      some (Keyword.mk (capitalize wc.1) (str "KEYWORD") (min score 1)
        (if dictResult.2.isEmpty then none else some dictResult.2))
    else none)
  (sortByScoreDesc keywords).take 25

/-- `extractDictionaryKeywords`: every dictionary term occurring in the
lowercased transcript yields a `DICTIONARY` keyword scored from term length
and dictionary weight (`(lengthScore * 0.6 + weight * 0.4) * 0.8`, capped). -/
def extractDictionaryKeywords (t : JSStr) (dictionaries : List Dictionary) :
    List Keyword :=
  sortByScoreDesc ((dictionaries.map (fun d =>
    d.terms.filterMap (fun term =>
      if containsSub (toLowerStr t) (toLowerStr term) then
        some (Keyword.mk (capitalize term) (str "DICTIONARY")
          (min (qmul (qadd (qmul (min (qdivN (term.length : ℚ) 15) 1)
            (mkRat 3 5)) (qmul d.weight (mkRat 2 5))) (mkRat 4 5)) 1)
          (some [d.name]))
      else none))).flatten)

/-- `extractKeywordsFromTranscript` of the dictionary revision.  Static
dictionaries come from the config through `loadDictionaries`; the dynamic
dictionaries (network-derived via `loadDynamicDictionaries`) enter as the
already-fetched `dynDicts` (empty when no dynamic sources are requested).
This revision has no long-transcript preprocessing and no knowledge-graph
pass, and `dictionariesUsed` is `dictionaries.map(d => d.name)`. -/
def extractKeywordsFromTranscriptDict (ner : JSStr → List RawNER)
    (readFile : JSStr → Option JSStr) (config : Option DictionaryConfig)
    (dynDicts : List Dictionary) (transcript : JSStr) : KeywordExtractionResult :=
  let dictionaries := staticDictsOf readFile config ++ dynDicts
  let nerKeywords := extractNamedEntitiesDict ner dictionaries transcript
  let generalKeywords := extractGeneralKeywordsDict dictionaries transcript
  let dictionaryKeywords := extractDictionaryKeywords transcript dictionaries
  let combined := combineKeywords (combineKeywords nerKeywords generalKeywords)
    dictionaryKeywords
  KeywordExtractionResult.mk combined (groupKeywordsByType combined)
    combined.length (dictionaries.map (·.name))

/-! ## Lemmas: whitespace normalisation and trimming -/

/-- No two adjacent whitespace characters (the `/\s{2,}/` test of the
repository's segment tests). -/
def noWSRun : List Char → Bool
  | c :: d :: rest => !(jsIsSpace c && jsIsSpace d) && noWSRun (d :: rest)
  | _ => true

theorem noWSRun_tail {c : Char} {l : List Char} (h : noWSRun (c :: l) = true) :
    noWSRun l = true := by
  cases l with
  | nil => rfl
  | cons d rest =>
    simp only [noWSRun, Bool.and_eq_true] at h
    exact h.2

theorem noWSRun_append_left :
    ∀ (a b : List Char), noWSRun (a ++ b) = true → noWSRun a = true
  | [], _, _ => rfl
  | [_], _, _ => rfl
  | x :: y :: r, b, h => by
    simp only [List.cons_append, noWSRun, Bool.and_eq_true] at h ⊢
    exact ⟨h.1, noWSRun_append_left (y :: r) b h.2⟩

theorem noWSRun_append_right :
    ∀ (a b : List Char), noWSRun (a ++ b) = true → noWSRun b = true
  | [], _, h => h
  | _ :: a, b, h => noWSRun_append_right a b (noWSRun_tail h)

theorem noWSRun_concat {x : List Char} {d : Char} (hx : noWSRun x = true)
    (hd : jsIsSpace d = false) : noWSRun (x ++ [d]) = true := by
  induction x with
  | nil => simp [noWSRun]
  | cons a r ih =>
    cases r with
    | nil => simp [noWSRun, hd]
    | cons b r' =>
      simp only [noWSRun, Bool.and_eq_true] at hx
      simp only [List.cons_append, noWSRun, Bool.and_eq_true]
      exact ⟨hx.1, ih hx.2⟩

theorem collapseWSAux_true_head {s : List Char} {c : Char}
    (h : (collapseWSAux true s).head? = some c) : jsIsSpace c = false := by
  induction s with
  | nil => simp [collapseWSAux] at h
  | cons d rest ih =>
    by_cases hd : jsIsSpace d = true
    · simp only [collapseWSAux, hd, if_true] at h
      exact ih h
    · rw [Bool.not_eq_true] at hd
      simp only [collapseWSAux, hd, Bool.false_eq_true, if_false] at h
      simp only [List.head?_cons, Option.some.injEq] at h
      rw [← h]; exact hd

theorem noWSRun_collapseWSAux : ∀ (b : Bool) (s : List Char),
    noWSRun (collapseWSAux b s) = true := by
  intro b s
  induction s generalizing b with
  | nil => cases b <;> rfl
  | cons c rest ih =>
    by_cases hc : jsIsSpace c = true
    · cases b with
      | true =>
        simp only [collapseWSAux, hc, if_true]
        exact ih true
      | false =>
        simp only [collapseWSAux, hc, if_true]
        cases hX : collapseWSAux true rest with
        | nil => rfl
        | cons x xs =>
          have hx : jsIsSpace x = false :=
            collapseWSAux_true_head (by rw [hX]; rfl)
          have hrun : noWSRun (x :: xs) = true := by rw [← hX]; exact ih true
          simp [noWSRun, hx, hrun]
    · rw [Bool.not_eq_true] at hc
      simp only [collapseWSAux, hc, Bool.false_eq_true, if_false]
      cases hX : collapseWSAux false rest with
      | nil => rfl
      | cons x xs =>
        have hrun : noWSRun (x :: xs) = true := by rw [← hX]; exact ih false
        simp [noWSRun, hc, hrun]

theorem mem_collapseWSAux {c : Char} : ∀ (b : Bool) (s : List Char),
    c ∈ collapseWSAux b s → c ∈ s ∨ c = ' ' := by
  intro b s
  induction s generalizing b with
  | nil => intro h; simp [collapseWSAux] at h
  | cons d rest ih =>
    intro h
    by_cases hd : jsIsSpace d = true
    · cases b with
      | true =>
        simp only [collapseWSAux, hd, if_true] at h
        rcases ih true h with h' | h'
        · exact Or.inl (List.mem_cons_of_mem _ h')
        · exact Or.inr h'
      | false =>
        simp only [collapseWSAux, hd, if_true, Bool.false_eq_true, if_false,
          List.mem_cons] at h
        rcases h with h | h
        · exact Or.inr h
        · rcases ih true h with h' | h'
          · exact Or.inl (List.mem_cons_of_mem _ h')
          · exact Or.inr h'
    · rw [Bool.not_eq_true] at hd
      simp only [collapseWSAux, hd, Bool.false_eq_true, if_false,
        List.mem_cons] at h
      rcases h with h | h
      · exact Or.inl (by simp [h])
      · rcases ih false h with h' | h'
        · exact Or.inl (List.mem_cons_of_mem _ h')
        · exact Or.inr h'

theorem dropWhile_head? {p : Char → Bool} :
    ∀ {l : List Char} {c : Char}, (l.dropWhile p).head? = some c → p c = false := by
  intro l
  induction l with
  | nil => intro c h; simp [List.dropWhile] at h
  | cons d rest ih =>
    intro c h
    by_cases hd : p d = true
    · rw [List.dropWhile_cons_of_pos hd] at h
      exact ih h
    · rw [Bool.not_eq_true] at hd
      rw [List.dropWhile_cons_of_neg (by simp [hd])] at h
      simp only [List.head?_cons, Option.some.injEq] at h
      rw [← h]; exact hd

theorem dropWhile_eq_self_of_head {p : Char → Bool} {l : List Char}
    (h : ∀ c, l.head? = some c → p c = false) : l.dropWhile p = l := by
  cases l with
  | nil => rfl
  | cons c rest =>
    exact List.dropWhile_cons_of_neg (by simp [h c rfl])

theorem dropTrailingWS_decomp (r : List Char) :
    r = dropTrailingWS r ++ (r.reverse.takeWhile jsIsSpace).reverse := by
  conv_lhs => rw [← List.reverse_reverse r,
    ← List.takeWhile_append_dropWhile (p := jsIsSpace) (l := r.reverse)]
  rw [List.reverse_append]
  rfl

theorem trim_decomp (s : List Char) :
    s = (s.takeWhile jsIsSpace) ++ trim s ++
      ((s.dropWhile jsIsSpace).reverse.takeWhile jsIsSpace).reverse := by
  conv_lhs => rw [← List.takeWhile_append_dropWhile (p := jsIsSpace) (l := s)]
  rw [List.append_assoc]
  congr 1
  exact dropTrailingWS_decomp (s.dropWhile jsIsSpace)

theorem mem_trim {c : Char} {s : List Char} (h : c ∈ trim s) : c ∈ s := by
  rw [trim_decomp s]
  simp only [List.mem_append]
  exact Or.inl (Or.inr h)

theorem noWSRun_trim {s : List Char} (h : noWSRun s = true) :
    noWSRun (trim s) = true := by
  have hd := trim_decomp s
  rw [List.append_assoc] at hd
  exact noWSRun_append_left _ _ (noWSRun_append_right _ _ (hd ▸ h))

theorem trim_getLast? {s : List Char} {c : Char}
    (h : (trim s).getLast? = some c) : jsIsSpace c = false := by
  have : (trim s).getLast? =
      ((s.dropWhile jsIsSpace).reverse.dropWhile jsIsSpace).head? := by
    simp [trim, dropTrailingWS]
  rw [this] at h
  exact dropWhile_head? h

theorem trim_head? {s : List Char} {c : Char}
    (h : (trim s).head? = some c) : jsIsSpace c = false := by
  apply dropWhile_head? (l := s) (c := c)
  have hd := dropTrailingWS_decomp (s.dropWhile jsIsSpace)
  cases hE : trim s with
  | nil => rw [hE] at h; simp at h
  | cons d rest =>
    rw [hE] at h
    simp only [List.head?_cons, Option.some.injEq] at h
    have : s.dropWhile jsIsSpace = d :: (rest ++
        ((s.dropWhile jsIsSpace).reverse.takeWhile jsIsSpace).reverse) := by
      conv_lhs => rw [hd]
      rw [show dropTrailingWS (s.dropWhile jsIsSpace) = trim s from rfl, hE]
      simp
    rw [this, h]
    rfl

theorem trim_eq_self_of {s : List Char}
    (hh : ∀ c, s.head? = some c → jsIsSpace c = false)
    (hl : ∀ c, s.getLast? = some c → jsIsSpace c = false) : trim s = s := by
  unfold trim dropTrailingWS
  rw [dropWhile_eq_self_of_head hh]
  rw [dropWhile_eq_self_of_head (l := s.reverse) (by
    intro c hc
    rw [List.head?_reverse] at hc
    exact hl c hc)]
  exact List.reverse_reverse s

theorem trim_idem (s : List Char) : trim (trim s) = trim s :=
  trim_eq_self_of (fun _ h => trim_head? h) (fun _ h => trim_getLast? h)

theorem mem_of_getLast? {α : Type} {l : List α} {a : α}
    (h : l.getLast? = some a) : a ∈ l := by
  induction l with
  | nil => simp at h
  | cons b rest ih =>
    cases rest with
    | nil =>
      simp only [List.getLast?_singleton, Option.some.injEq] at h
      simp [h]
    | cons e r =>
      rw [List.getLast?_cons_cons] at h
      exact List.mem_cons_of_mem _ (ih h)

theorem trim_concat_of {s : List Char} {d : Char} (hs : trim s = s)
    (hd : jsIsSpace d = false) : trim (s ++ [d]) = s ++ [d] := by
  apply trim_eq_self_of
  · intro c hc
    cases s with
    | nil =>
      simp only [List.nil_append, List.head?_cons, Option.some.injEq] at hc
      rw [← hc]; exact hd
    | cons a rest =>
      simp only [List.cons_append, List.head?_cons, Option.some.injEq] at hc
      apply trim_head? (s := a :: rest)
      rw [hs, List.head?_cons, hc]
  · intro c hc
    rw [List.getLast?_concat] at hc
    rw [← Option.some.injEq c d |>.mp hc.symm] at hd
    exact hd

/-! ## Lemmas: the characters surviving a split -/

mutual

theorem splitRunsAux_chars (p : Char → Bool) :
    ∀ (s acc : List Char), (∀ c ∈ acc, p c = false) →
      ∀ piece ∈ splitRunsAux p acc s, ∀ c ∈ piece, p c = false
  | [], acc, hacc, piece, hp, c, hc => by
    simp only [splitRunsAux, List.mem_singleton] at hp
    exact hacc c (by rw [hp] at hc; exact List.mem_reverse.mp hc)
  | d :: rest, acc, hacc, piece, hp, c, hc => by
    by_cases hd : p d = true
    · simp only [splitRunsAux, hd, if_true, List.mem_cons] at hp
      rcases hp with hp | hp
      · exact hacc c (by rw [hp] at hc; exact List.mem_reverse.mp hc)
      · exact splitRunsGo_chars p rest piece hp c hc
    · rw [Bool.not_eq_true] at hd
      simp only [splitRunsAux, hd, Bool.false_eq_true, if_false] at hp
      refine splitRunsAux_chars p rest (d :: acc) ?_ piece hp c hc
      intro e he
      rcases List.mem_cons.mp he with he | he
      · rw [he]; exact hd
      · exact hacc e he

theorem splitRunsGo_chars (p : Char → Bool) :
    ∀ (s : List Char), ∀ piece ∈ splitRunsGo p s, ∀ c ∈ piece, p c = false
  | [], piece, hp, c, hc => by
    simp only [splitRunsGo, List.mem_singleton] at hp
    rw [hp] at hc
    exact absurd hc (List.not_mem_nil c)
  | d :: rest, piece, hp, c, hc => by
    by_cases hd : p d = true
    · simp only [splitRunsGo, hd, if_true] at hp
      exact splitRunsGo_chars p rest piece hp c hc
    · rw [Bool.not_eq_true] at hd
      simp only [splitRunsGo, hd, Bool.false_eq_true, if_false] at hp
      refine splitRunsAux_chars p rest [d] ?_ piece hp c hc
      intro e he
      rw [List.mem_singleton.mp he]
      exact hd

end

theorem splitRuns_chars {p : Char → Bool} {s piece : List Char}
    (hp : piece ∈ splitRuns p s) : ∀ c ∈ piece, p c = false :=
  splitRunsAux_chars p s [] (by intro c hc; exact absurd hc (List.not_mem_nil c))
    piece hp

theorem splitChar_chars {d : Char} :
    ∀ {s piece : List Char}, piece ∈ splitChar d s → ∀ c ∈ piece, c ∈ s := by
  intro s
  induction s with
  | nil =>
    intro piece hp c hc
    simp only [splitChar, List.mem_singleton] at hp
    rw [hp] at hc
    exact absurd hc (List.not_mem_nil c)
  | cons a rest ih =>
    intro piece hp c hc
    by_cases ha : a = d
    · simp only [splitChar, ha, if_true, List.mem_cons] at hp
      rcases hp with hp | hp
      · rw [hp] at hc; exact absurd hc (List.not_mem_nil c)
      · exact List.mem_cons_of_mem _ (ih hp c hc)
    · simp only [splitChar, ha, if_false] at hp
      rcases hsp : splitChar d rest with _ | ⟨piece', pieces⟩
      · rw [hsp] at hp
        simp only [List.mem_singleton] at hp
        rw [hp] at hc
        simp only [List.mem_singleton] at hc
        simp [hc]
      · rw [hsp] at hp
        rcases List.mem_cons.mp hp with hp | hp
        · rw [hp] at hc
          rcases List.mem_cons.mp hc with hc | hc
          · simp [hc]
          · exact List.mem_cons_of_mem _
              (ih (by rw [hsp]; exact List.mem_cons_self piece' pieces) c hc)
        · exact List.mem_cons_of_mem _
            (ih (by rw [hsp]; exact List.mem_cons_of_mem _ hp) c hc)

theorem isSentPunct_isDelim {c : Char} (h : isSentPunct c = true) :
    isDelim c = true := by
  simp only [isSentPunct, Bool.or_eq_true] at h
  rcases h with (h | h) | h <;>
    · rw [decide_eq_true_iff] at h
      rw [h]
      decide

/-! ## The anatomy of `extractSegments` output -/

theorem extractSegments_shape {t s : JSStr} (hs : s ∈ extractSegments t) :
    ∃ y, (∀ c ∈ y, isDelim c = false) ∧
      10 ≤ (trim (collapseWS y)).length ∧
      (s = trim (collapseWS y) ∧ sentenceEnd (trim (collapseWS y)) = true ∨
        s = trim (collapseWS y) ++ ['.']) := by
  unfold extractSegments at hs
  by_cases ht : trim t = []
  · rw [if_pos ht] at hs
    exact absurd hs (List.not_mem_nil s)
  · rw [if_neg ht] at hs
    simp only [List.mem_map] at hs
    obtain ⟨x, hx, hsx⟩ := hs
    simp only [List.mem_filter, Bool.and_eq_true, decide_eq_true_iff,
      Bool.not_eq_eq_eq_not, Bool.not_true] at hx
    obtain ⟨hxmem, hxlen, _⟩ := hx
    simp only [List.mem_map] at hxmem
    obtain ⟨y, hy, hxy⟩ := hxmem
    refine ⟨y, ?_, ?_⟩
    · -- every character of a comma piece of a delimiter piece is a non-delimiter
      simp only [List.mem_flatMap] at hy
      obtain ⟨seg, hseg, hyseg⟩ := hy
      simp only [List.mem_filter, List.mem_map] at hseg
      obtain ⟨⟨piece, hpiece, hsegp⟩, _⟩ := hseg
      have hsegchars : ∀ c ∈ seg, isDelim c = false := by
        intro c hc
        exact splitRuns_chars hpiece c (mem_trim (by rw [hsegp]; exact hc))
      by_cases hlong : 100 < seg.length
      · rw [if_pos hlong] at hyseg
        simp only [List.mem_filter, List.mem_map] at hyseg
        obtain ⟨⟨z, hz, hyz⟩, _⟩ := hyseg
        intro c hc
        exact hsegchars c (splitChar_chars hz c (mem_trim (by rw [hyz]; exact hc)))
      · rw [if_neg hlong] at hyseg
        rw [List.mem_singleton.mp hyseg]
        exact hsegchars
    · refine ⟨by rw [hxy]; exact hxlen, ?_⟩
      by_cases hend : sentenceEnd x = true
      · rw [if_pos hend] at hsx
        exact Or.inl ⟨by rw [← hsx, hxy], by rw [hxy]; exact hend⟩
      · rw [if_neg hend] at hsx
        exact Or.inr (by rw [← hsx, hxy])

theorem extractSegments_props {t s : JSStr} (hs : s ∈ extractSegments t) :
    ∃ x, s = x ++ ['.'] ∧ 10 ≤ x.length ∧ trim x = x ∧ noWSRun x = true ∧
      ∀ c ∈ x, isDelim c = false := by
  obtain ⟨y, hy, hlen, hcase⟩ := extractSegments_shape hs
  have hxchars : ∀ c ∈ trim (collapseWS y), isDelim c = false := by
    intro c hc
    rcases mem_collapseWSAux false y (mem_trim hc) with h' | h'
    · exact hy c h'
    · rw [h']; decide
  have hend : sentenceEnd (trim (collapseWS y)) = false := by
    unfold sentenceEnd
    cases hL : (trim (collapseWS y)).getLast? with
    | none => rfl
    | some c =>
      have hcnd : isDelim c = false := hxchars c (mem_of_getLast? hL)
      show isSentPunct c = false
      cases hP : isSentPunct c with
      | false => rfl
      | true => rw [isSentPunct_isDelim hP] at hcnd; exact hcnd
  rcases hcase with ⟨_, habs⟩ | hsx
  · rw [hend] at habs
    exact absurd habs Bool.false_ne_true
  · exact ⟨trim (collapseWS y), hsx, hlen, trim_idem _,
      noWSRun_trim (noWSRun_collapseWSAux false y), hxchars⟩

/-! ## Claims C2, C3, C4, C10 (the segmenter) -/

/-- C2 counterexample: on `"Hello world. This is a test. How are you today?"`
the claimed output, whose third element is `"How are you today?"`, is not what
`extractSegments` returns — the split removes the `?` and step 5 appends a
`.` instead. -/
theorem C2_counterexample :
    extractSegments (str "Hello world. This is a test. How are you today?") ≠
      [str "Hello world.", str "This is a test.", str "How are you today?"] := by
  decide

/-- C2 (amended): `extractSegments` on
`"Hello world. This is a test. How are you today?"` returns exactly the three
segments `"Hello world."`, `"This is a test."`, `"How are you today."`, in
that order (the original final `?` does not survive; a `.` is appended). -/
theorem C2_amended_segments :
    extractSegments (str "Hello world. This is a test. How are you today?") =
      [str "Hello world.", str "This is a test.", str "How are you today."] := by
  decide

/-- C3 counterexample: `"abc"` trims to a non-empty string, yet
`extractSegments` returns `[]` (every piece is shorter than 10 characters), so
the claimed equivalence fails right-to-left. -/
theorem C3_counterexample :
    extractSegments (str "abc") = [] ∧ trim (str "abc") ≠ [] := by
  constructor
  · decide
  · decide

/-- C3 (amended): if the input trimmed of whitespace is empty then
`extractSegments` returns `[]`.  (The converse direction of the claimed "iff"
is false: non-empty inputs whose pieces are all shorter than 10 characters,
such as `"abc"`, also return `[]`.) -/
theorem C3_empty_iff_trimmed_empty (t : JSStr) (h : trim t = []) :
    extractSegments t = [] := by
  unfold extractSegments
  rw [if_pos h]

/-- C3 witness: the amended theorem applied to the whitespace-only input
`"   "`. -/
theorem C3_witness : extractSegments (str "   ") = [] :=
  C3_empty_iff_trimmed_empty (str "   ") (by decide)

/-- C4: every segment returned by `extractSegments` has trimmed length at
least 10, ends in one of `.`, `!`, `?`, contains no run of two or more
consecutive whitespace characters, and carries no leading or trailing
whitespace (trimming it is the identity). -/
theorem C4_segment_invariants (t : JSStr) :
    ∀ s ∈ extractSegments t,
      10 ≤ (trim s).length ∧
      (∃ c, s.getLast? = some c ∧ isSentPunct c = true) ∧
      noWSRun s = true ∧ trim s = s := by
  intro s hs
  obtain ⟨x, hsx, hlen, htrim, hrun, _⟩ := extractSegments_props hs
  have htrims : trim s = s := by
    rw [hsx]; exact trim_concat_of htrim (by decide)
  refine ⟨?_, ?_, ?_, htrims⟩
  · rw [htrims, hsx, List.length_append]
    simpa using Nat.le_succ_of_le hlen
  · exact ⟨'.', by rw [hsx]; exact List.getLast?_concat x, by decide⟩
  · rw [hsx]; exact noWSRun_concat hrun (by decide)

/-- C4 witness: the invariants hold for the first segment of a concrete
transcript. -/
theorem C4_witness :
    10 ≤ (trim (str "Hello world.")).length ∧
    (∃ c, (str "Hello world.").getLast? = some c ∧ isSentPunct c = true) ∧
    noWSRun (str "Hello world.") = true ∧
    trim (str "Hello world.") = str "Hello world." :=
  C4_segment_invariants (str "Hello world. This is a test.")
    (str "Hello world.") (by decide)

/-- C10: every segment ends with the character `.` specifically, and its
remaining characters contain none of the delimiter characters
`. ! ? ; : newline em-dash en-dash ellipsis`: the delimiter split removed them
all, so an original sentence-final `!` or `?` never survives into the
output. -/
theorem C10_terminal_dot (t : JSStr) :
    ∀ s ∈ extractSegments t,
      s.getLast? = some '.' ∧ ∀ c ∈ s.dropLast, isDelim c = false := by
  intro s hs
  obtain ⟨x, hsx, _, _, _, hchars⟩ := extractSegments_props hs
  constructor
  · rw [hsx]; exact List.getLast?_concat x
  · rw [hsx, List.dropLast_concat]
    exact hchars

/-- C10 witness: a transcript whose sentences end in `!` and `?` yields
segments that end in `.` with no interior delimiter characters. -/
theorem C10_witness :
    (str "What about you today?").getLast? = some '.' ∨
    ((str "How are you doing now.").getLast? = some '.' ∧
      ∀ c ∈ (str "How are you doing now.").dropLast, isDelim c = false) :=
  Or.inr (C10_terminal_dot (str "How are you doing now! What about tomorrow?")
    (str "How are you doing now.") (by decide))

/-! ## Lemmas: JavaScript maps -/

theorem mem_mapSet {α : Type} {m : List (JSStr × α)} {k : JSStr} {v : α}
    {p : JSStr × α} (h : p ∈ mapSet m k v) : p ∈ m ∨ p = (k, v) := by
  induction m with
  | nil =>
    simp only [mapSet, List.mem_singleton] at h
    exact Or.inr h
  | cons q rest ih =>
    obtain ⟨k', v'⟩ := q
    by_cases hk : k' = k
    · simp only [mapSet, hk, if_true, List.mem_cons] at h
      rcases h with h | h
      · exact Or.inr h
      · exact Or.inl (List.mem_cons_of_mem _ h)
    · simp only [mapSet, hk, if_false, List.mem_cons] at h
      rcases h with h | h
      · exact Or.inl (by rw [h]; exact List.mem_cons_self _ _)
      · rcases ih h with h' | h'
        · exact Or.inl (List.mem_cons_of_mem _ h')
        · exact Or.inr h'

theorem mapGet_mapSet {α : Type} (m : List (JSStr × α)) (k w : JSStr) (v : α) :
    mapGet (mapSet m k v) w = if w = k then some v else mapGet m w := by
  induction m with
  | nil =>
    by_cases hw : w = k
    · subst hw
      simp [mapSet, mapGet]
    · simp only [mapSet, mapGet]
      rw [if_neg (fun h => hw h.symm), if_neg hw]
  | cons q rest ih =>
    obtain ⟨k', v'⟩ := q
    by_cases hk : k' = k
    · subst hk
      simp only [mapSet, if_pos rfl, mapGet]
      by_cases hw : k' = w
      · rw [if_pos hw, if_pos hw.symm]
      · rw [if_neg hw, if_neg (fun h => hw h.symm), if_neg hw]
    · simp only [mapSet, if_neg hk, mapGet]
      by_cases hw : k' = w
      · have hwk : ¬(w = k) := fun h => hk (hw.trans h)
        rw [if_pos hw, if_neg hwk, if_pos hw]
      · rw [if_neg hw, ih, if_neg hw]

/-- The value-level effect of one `upsertHigher` step. -/
def mergeStep : Option Keyword → Keyword → Option Keyword
  | none, k => some k
  | some existing, k =>
    if existing.score < k.score then some k else some existing

theorem get_foldl_insertKey (key : Keyword → JSStr) (l : List Keyword)
    (m : List (JSStr × Keyword)) (w : JSStr) :
    mapGet (l.foldl (insertKey key) m) w =
      (l.filter (fun k => key k = w)).foldl (fun _ k => some k) (mapGet m w) := by
  induction l generalizing m with
  | nil => rfl
  | cons k l ih =>
    simp only [List.foldl_cons]
    rw [ih]
    by_cases hk : key k = w
    · rw [List.filter_cons_of_pos (by simp [hk]), List.foldl_cons]
      congr 1
      unfold insertKey
      rw [mapGet_mapSet, if_pos hk.symm]
    · rw [List.filter_cons_of_neg (by simp [hk])]
      congr 1
      unfold insertKey
      rw [mapGet_mapSet, if_neg (fun h => hk h.symm)]

theorem get_foldl_upsertHigher (key : Keyword → JSStr) (l : List Keyword)
    (m : List (JSStr × Keyword)) (w : JSStr) :
    mapGet (l.foldl (upsertHigher key) m) w =
      (l.filter (fun k => key k = w)).foldl mergeStep (mapGet m w) := by
  induction l generalizing m with
  | nil => rfl
  | cons k l ih =>
    simp only [List.foldl_cons]
    rw [ih]
    by_cases hk : key k = w
    · rw [List.filter_cons_of_pos (by simp [hk]), List.foldl_cons]
      congr 1
      cases hg : mapGet m (key k) with
      | none =>
        have hgw : mapGet m w = none := by rw [← hk]; exact hg
        simp only [upsertHigher, hg]
        rw [mapGet_mapSet, if_pos hk.symm, hgw]
        rfl
      | some ex =>
        have hgw : mapGet m w = some ex := by rw [← hk]; exact hg
        simp only [upsertHigher, hg]
        by_cases hs : ex.score < k.score
        · rw [if_pos hs, mapGet_mapSet, if_pos hk.symm, hgw]
          simp [mergeStep, hs]
        · rw [if_neg hs, hgw]
          simp [mergeStep, hs]
    · rw [List.filter_cons_of_neg (by simp [hk])]
      congr 1
      cases hg : mapGet m (key k) with
      | none =>
        simp only [upsertHigher, hg]
        rw [mapGet_mapSet, if_neg (fun h => hk h.symm)]
      | some ex =>
        simp only [upsertHigher, hg]
        by_cases hs : ex.score < k.score
        · rw [if_pos hs, mapGet_mapSet, if_neg (fun h => hk h.symm)]
        · rw [if_neg hs]

/-- Keys of the keyword maps always equal the key of the stored value. -/
def KeyInv (key : Keyword → JSStr) (m : List (JSStr × Keyword)) : Prop :=
  ∀ p ∈ m, p.1 = key p.2

theorem keyInv_mapSet {key : Keyword → JSStr} {m : List (JSStr × Keyword)}
    {v : Keyword} (h : KeyInv key m) : KeyInv key (mapSet m (key v) v) := by
  intro p hp
  rcases mem_mapSet hp with hp | hp
  · exact h p hp
  · rw [hp]

theorem keys_mem_mapSet {α : Type} {m : List (JSStr × α)} {k w : JSStr} {v : α}
    (h : w ∈ (mapSet m k v).map (·.1)) : w ∈ m.map (·.1) ∨ w = k := by
  simp only [List.mem_map] at h
  obtain ⟨p, hp, hw⟩ := h
  rcases mem_mapSet hp with hp | hp
  · exact Or.inl (by simp only [List.mem_map]; exact ⟨p, hp, hw⟩)
  · rw [hp] at hw
    exact Or.inr hw.symm

theorem nodupKeys_mapSet {α : Type} :
    ∀ {m : List (JSStr × α)} (k : JSStr) (v : α),
      (m.map (·.1)).Nodup → ((mapSet m k v).map (·.1)).Nodup := by
  intro m
  induction m with
  | nil =>
    intro k v _
    simp [mapSet]
  | cons q rest ih =>
    intro k v h
    obtain ⟨k', v'⟩ := q
    simp only [List.map_cons, List.nodup_cons] at h
    by_cases hk : k' = k
    · simp only [mapSet, hk, if_true, List.map_cons, List.nodup_cons]
      exact ⟨by rw [← hk]; exact h.1, h.2⟩
    · simp only [mapSet, hk, if_false, List.map_cons, List.nodup_cons]
      refine ⟨?_, ih k v h.2⟩
      intro hmem
      rcases keys_mem_mapSet hmem with hmem | hmem
      · exact h.1 hmem
      · exact hk hmem

theorem valuesFilter_of_wf {key : Keyword → JSStr} :
    ∀ {m : List (JSStr × Keyword)} {w : JSStr}, KeyInv key m →
      (m.map (·.1)).Nodup →
      (m.map (·.2)).filter (fun v => key v = w) =
        (match mapGet m w with | some v => [v] | none => []) := by
  intro m
  induction m with
  | nil => intro w _ _; rfl
  | cons q rest ih =>
    intro w hinv hnd
    obtain ⟨k0, v0⟩ := q
    have hk0 : k0 = key v0 := hinv (k0, v0) (List.mem_cons_self _ _)
    simp only [List.map_cons, List.nodup_cons] at hnd
    simp only [List.map_cons, List.filter_cons, mapGet]
    by_cases hw : k0 = w
    · have hkv : key v0 = w := by rw [← hk0]; exact hw
      rw [if_pos hw]
      have hrest : (rest.map (·.2)).filter (fun v => key v = w) = [] := by
        rw [List.filter_eq_nil_iff]
        intro v hv
        simp only [List.mem_map] at hv
        obtain ⟨p, hp, hpv⟩ := hv
        have hpk : p.1 = key p.2 := hinv p (List.mem_cons_of_mem _ hp)
        simp only [decide_eq_true_eq]
        intro hcontra
        apply hnd.1
        have : p.1 = k0 := by rw [hpk, hpv, hcontra, hw]
        rw [← this]
        exact List.mem_map.mpr ⟨p, hp, rfl⟩
      simp [hkv, hrest]
    · have hkv : ¬(key v0 = w) := by rw [← hk0]; exact hw
      rw [if_neg hw]
      simpa [hkv] using ih (fun p hp => hinv p (List.mem_cons_of_mem _ hp)) hnd.2

theorem keyInv_foldl_insertKey {key : Keyword → JSStr} (l : List Keyword) :
    ∀ {m : List (JSStr × Keyword)}, KeyInv key m →
      KeyInv key (l.foldl (insertKey key) m) := by
  induction l with
  | nil => intro m h; exact h
  | cons k l ih =>
    intro m h
    exact ih (keyInv_mapSet h)

theorem keyInv_foldl_upsertHigher {key : Keyword → JSStr} (l : List Keyword) :
    ∀ {m : List (JSStr × Keyword)}, KeyInv key m →
      KeyInv key (l.foldl (upsertHigher key) m) := by
  induction l with
  | nil => intro m h; exact h
  | cons k l ih =>
    intro m h
    refine ih ?_
    unfold upsertHigher
    cases mapGet m (key k) with
    | none => exact keyInv_mapSet h
    | some ex =>
      show KeyInv key (if ex.score < k.score then mapSet m (key k) k else m)
      by_cases hs : ex.score < k.score
      · rw [if_pos hs]; exact keyInv_mapSet h
      · rw [if_neg hs]; exact h

theorem nodupKeys_foldl_insertKey {key : Keyword → JSStr} (l : List Keyword) :
    ∀ {m : List (JSStr × Keyword)}, (m.map (·.1)).Nodup →
      ((l.foldl (insertKey key) m).map (·.1)).Nodup := by
  induction l with
  | nil => intro m h; exact h
  | cons k l ih =>
    intro m h
    exact ih (nodupKeys_mapSet _ _ h)

theorem nodupKeys_foldl_upsertHigher {key : Keyword → JSStr} (l : List Keyword) :
    ∀ {m : List (JSStr × Keyword)}, (m.map (·.1)).Nodup →
      ((l.foldl (upsertHigher key) m).map (·.1)).Nodup := by
  induction l with
  | nil => intro m h; exact h
  | cons k l ih =>
    intro m h
    refine ih ?_
    unfold upsertHigher
    cases mapGet m (key k) with
    | none => exact nodupKeys_mapSet _ _ h
    | some ex =>
      show ((if ex.score < k.score then mapSet m (key k) k else m).map
        (·.1)).Nodup
      by_cases hs : ex.score < k.score
      · rw [if_pos hs]; exact nodupKeys_mapSet _ _ h
      · rw [if_neg hs]; exact h

theorem mem_foldl_insertKey {key : Keyword → JSStr} {p : JSStr × Keyword}
    (l : List Keyword) :
    ∀ {m : List (JSStr × Keyword)}, p ∈ l.foldl (insertKey key) m →
      p ∈ m ∨ p.2 ∈ l := by
  induction l with
  | nil => intro m h; exact Or.inl h
  | cons k l ih =>
    intro m h
    rcases ih h with h' | h'
    · rcases mem_mapSet h' with h'' | h''
      · exact Or.inl h''
      · rw [h'']
        exact Or.inr (List.mem_cons_self _ _)
    · exact Or.inr (List.mem_cons_of_mem _ h')

theorem mem_foldl_upsertHigher {key : Keyword → JSStr} {p : JSStr × Keyword}
    (l : List Keyword) :
    ∀ {m : List (JSStr × Keyword)}, p ∈ l.foldl (upsertHigher key) m →
      p ∈ m ∨ p.2 ∈ l := by
  induction l with
  | nil => intro m h; exact Or.inl h
  | cons k l ih =>
    intro m h
    rcases ih h with h' | h'
    · unfold upsertHigher at h'
      have hcase : p ∈ mapSet m (key k) k ∨ p ∈ m := by
        cases hg : mapGet m (key k) with
        | none =>
          rw [hg] at h'
          exact Or.inl h'
        | some ex =>
          rw [hg] at h'
          have h'' : p ∈ if ex.score < k.score then mapSet m (key k) k else m := h'
          by_cases hs : ex.score < k.score
          · rw [if_pos hs] at h''; exact Or.inl h''
          · rw [if_neg hs] at h''; exact Or.inr h''
      rcases hcase with h'' | h''
      · rcases mem_mapSet h'' with h3 | h3
        · exact Or.inl h3
        · rw [h3]
          exact Or.inr (List.mem_cons_self _ _)
      · exact Or.inl h''
    · exact Or.inr (List.mem_cons_of_mem _ h')

theorem insertBy_perm {α : Type} (lt : α → α → Bool) (a : α) :
    ∀ xs : List α, (insertBy lt a xs).Perm (a :: xs) := by
  intro xs
  induction xs with
  | nil => exact List.Perm.refl _
  | cons x xs ih =>
    by_cases h : lt x a = true
    · simp only [insertBy, h, if_true]
      exact List.Perm.refl _
    · simp only [insertBy, h, if_false]
      exact (ih.cons x).trans (List.Perm.swap a x xs)

theorem stableSortBy_perm {α : Type} (lt : α → α → Bool) (l : List α) :
    (stableSortBy lt l).Perm l := by
  suffices h : ∀ (l acc : List α),
      (l.foldl (fun acc a => insertBy lt a acc) acc).Perm (acc ++ l) by
    simpa using h l []
  intro l
  induction l with
  | nil => intro acc; simp
  | cons a l ih =>
    intro acc
    simp only [List.foldl_cons]
    refine (ih (insertBy lt a acc)).trans ?_
    refine (List.Perm.append_right l (insertBy_perm lt a acc)).trans ?_
    exact List.perm_middle.symm

theorem sortByScoreDesc_perm (l : List Keyword) :
    (sortByScoreDesc l).Perm l :=
  stableSortBy_perm _ l

theorem mem_sortByScoreDesc {k : Keyword} {l : List Keyword} :
    k ∈ sortByScoreDesc l ↔ k ∈ l :=
  (sortByScoreDesc_perm l).mem_iff

theorem mem_combineKeywords {k : Keyword} {a b : List Keyword}
    (h : k ∈ combineKeywords a b) : k ∈ a ∨ k ∈ b := by
  unfold combineKeywords at h
  rw [mem_sortByScoreDesc] at h
  simp only [List.mem_map] at h
  obtain ⟨p, hp, hpk⟩ := h
  rcases mem_foldl_upsertHigher _ hp with h' | h'
  · rcases mem_foldl_insertKey _ h' with h'' | h''
    · exact absurd h'' (List.not_mem_nil p)
    · exact Or.inl (hpk ▸ h'')
  · exact Or.inr (hpk ▸ h')

theorem mem_dedupByKey {key : Keyword → JSStr} {k : Keyword} {ks : List Keyword}
    (h : k ∈ dedupByKey key ks) : k ∈ ks := by
  unfold dedupByKey at h
  simp only [List.mem_map] at h
  obtain ⟨p, hp, hpk⟩ := h
  rcases mem_foldl_upsertHigher _ hp with h' | h'
  · exact absurd h' (List.not_mem_nil p)
  · exact hpk ▸ h'

/-! ## Claim C1 (the merge law of `combineKeywords`) -/

theorem combineKeywords_filter_pair (A B : List Keyword) (w : JSStr)
    (ka kb : Keyword)
    (hA : A.filter (fun k => keyOf k = w) = [ka])
    (hB : B.filter (fun k => keyOf k = w) = [kb]) :
    (combineKeywords A B).filter (fun k => keyOf k = w) =
      [if ka.score < kb.score then kb else ka] := by
  have hget1 : mapGet (A.foldl (insertKey keyOf) []) w = some ka := by
    rw [get_foldl_insertKey, hA]
    rfl
  have hget : mapGet
      (B.foldl (upsertHigher keyOf) (A.foldl (insertKey keyOf) [])) w =
      some (if ka.score < kb.score then kb else ka) := by
    rw [get_foldl_upsertHigher, hB, hget1]
    by_cases hs : ka.score < kb.score
    · simp [mergeStep, hs]
    · simp [mergeStep, hs]
  have hinv : KeyInv keyOf
      (B.foldl (upsertHigher keyOf) (A.foldl (insertKey keyOf) [])) :=
    keyInv_foldl_upsertHigher B (keyInv_foldl_insertKey A
      (fun p hp => absurd hp (List.not_mem_nil p)))
  have hnd : ((B.foldl (upsertHigher keyOf)
      (A.foldl (insertKey keyOf) [])).map (·.1)).Nodup :=
    nodupKeys_foldl_upsertHigher B (nodupKeys_foldl_insertKey A (by simp))
  have hvals := valuesFilter_of_wf (w := w) hinv hnd
  rw [hget] at hvals
  have hperm : ((combineKeywords A B).filter (fun k => keyOf k = w)).Perm
      (((B.foldl (upsertHigher keyOf)
        (A.foldl (insertKey keyOf) [])).map (·.2)).filter
        (fun k => keyOf k = w)) := by
    unfold combineKeywords
    exact List.Perm.filter _ (sortByScoreDesc_perm _)
  rw [hvals] at hperm
  exact List.perm_singleton.mp hperm

/-- The higher-priority merged entry of the C1 counterexample. -/
def kwReactNER : Keyword :=
  Keyword.mk (str "React") (str "ORG") (mkRat 9 10) (some [str "NER"])

/-- The lower-priority merged entry of the C1 counterexample. -/
def kwReactGeneral : Keyword :=
  Keyword.mk (str "react") (str "KEYWORD") (mkRat 1 2) (some [str "General"])

/-- C1 counterexample: merging `[React/ORG, 0.9, sources ["NER"]]` (higher
priority) with `[react/KEYWORD, 0.5, sources ["General"]]` keeps the winning
entry unchanged: its `sources` stays `["NER"]`, not the union
`{"NER", "General"}` the claim requires (in either order). -/
theorem C1_counterexample :
    combineKeywords [kwReactNER] [kwReactGeneral] = [kwReactNER] ∧
    kwReactNER.sources = some [str "NER"] ∧
    kwReactNER.sources ≠ some [str "NER", str "General"] ∧
    kwReactNER.sources ≠ some [str "General", str "NER"] := by
  refine ⟨by decide, rfl, by decide, by decide⟩

/-- C1 (amended): for a word (compared lowercased) with exactly one entry in
each list, the merged list contains exactly one keyword for that word: the
entry with the strictly higher score (the higher-priority entry on ties),
kept wholesale.  Its score is the maximum of the two scores; its `sources`
field is the winning entry's sources, not the union of the two. -/
theorem C1_merge_keeps_max (A B : List Keyword) (w : JSStr) (ka kb : Keyword)
    (hA : A.filter (fun k => keyOf k = w) = [ka])
    (hB : B.filter (fun k => keyOf k = w) = [kb]) :
    (combineKeywords A B).filter (fun k => keyOf k = w) =
      [if ka.score < kb.score then kb else ka] ∧
    (if ka.score < kb.score then kb else ka).score = max ka.score kb.score := by
  refine ⟨combineKeywords_filter_pair A B w ka kb hA hB, ?_⟩
  by_cases hs : ka.score < kb.score
  · rw [if_pos hs, max_eq_right (le_of_lt hs)]
  · rw [if_neg hs, max_eq_left (le_of_not_lt hs)]

/-- C1 witness: the amended merge law applied to the concrete pair of the
counterexample. -/
theorem C1_witness :
    (combineKeywords [kwReactNER] [kwReactGeneral]).filter
      (fun k => keyOf k = str "react") = [kwReactNER] ∧
    kwReactNER.score = max kwReactNER.score kwReactGeneral.score := by
  have h := C1_merge_keeps_max [kwReactNER] [kwReactGeneral] (str "react")
    kwReactNER kwReactGeneral (by decide) (by decide)
  rcases h with ⟨h1, h2⟩
  rw [if_neg (by decide : ¬(kwReactNER.score < kwReactGeneral.score))] at h1 h2
  exact ⟨h1, h2⟩

/-! ## Claim C6 (empty transcript) -/

/-- C6: for the empty transcript the base extractor returns (never raising)
exactly the empty result: no keywords, no groups, zero count, no dictionaries
used — whatever the external NER model, knowledge-graph toggle and fetcher
are. -/
theorem C6_empty_transcript (ner : JSStr → List RawNER) (kgOn : Bool)
    (fetch : JSStr → List KGEntity) :
    extractKeywordsFromTranscript ner kgOn fetch (str "") =
      KeywordExtractionResult.mk [] [] 0 [] := by
  cases kgOn <;> rfl

/-! ## Claim C7 (`dictionariesUsed`) -/

/-- A dictionary configuration whose single inline term matches nothing in the
transcript of the C7 counterexample. -/
def cfgUnused : DictionaryConfig :=
  DictionaryConfig.mk [DictionarySource.inlineTerms [str "zzzqqq"] (some 1)] none

/-- C7 counterexample: the inline dictionary is loaded but none of its terms
matches `"hi"` — the extraction returns zero keywords, yet `dictionariesUsed`
still lists `"Inline Dictionary"`; the claim requires it to be empty. -/
theorem C7_counterexample :
    (extractKeywordsFromTranscriptDict (fun _ => []) (fun _ => none)
      (some cfgUnused) [] (str "hi")).dictionariesUsed =
        [str "Inline Dictionary"] ∧
    (extractKeywordsFromTranscriptDict (fun _ => []) (fun _ => none)
      (some cfgUnused) [] (str "hi")).keywords = [] := by
  exact ⟨by decide, by decide⟩

/-- C7 (amended): in the dictionary revision, `dictionariesUsed` lists the
names of all dictionaries that were loaded with a non-empty term set (static
ones from the config, then the dynamic ones), in order, regardless of whether
any of their terms matched the transcript; in the base (knowledge-graph)
revision, `dictionariesUsed` equals `["Google Knowledge Graph"]` exactly when
the knowledge-graph pass contributed at least one keyword. -/
theorem C7_dictionariesUsed (ner nerB : JSStr → List RawNER)
    (readFile : JSStr → Option JSStr) (config : Option DictionaryConfig)
    (dynDicts : List Dictionary) (kgOn : Bool) (fetch : JSStr → List KGEntity)
    (t u : JSStr) :
    (extractKeywordsFromTranscriptDict ner readFile config dynDicts
        t).dictionariesUsed =
      (staticDictsOf readFile config ++ dynDicts).map (·.name) ∧
    (∀ d ∈ staticDictsOf readFile config, d.terms ≠ []) ∧
    ((extractKeywordsFromTranscript nerB kgOn fetch u).dictionariesUsed =
        [str "Google Knowledge Graph"] ↔
      extractKnowledgeGraphKeywords kgOn fetch (processLongTranscript u) ≠ []) := by
  refine ⟨rfl, ?_, ?_⟩
  · intro d hd
    cases config with
    | none => exact absurd hd (List.not_mem_nil d)
    | some c =>
      simp only [staticDictsOf, loadDictionaries, List.mem_filter,
        Bool.not_eq_eq_eq_not, Bool.not_true, List.isEmpty_eq_false] at hd
      exact hd.2
  · simp only [extractKeywordsFromTranscript]
    by_cases hkg :
        extractKnowledgeGraphKeywords kgOn fetch (processLongTranscript u) = []
    · rw [hkg]
      simp
    · rw [if_pos (by
        simp only [gt_iff_lt, List.length_pos]
        exact hkg)]
      simp [hkg]

/-- C7 witness: the amended theorem applied to the counterexample
configuration. -/
theorem C7_witness :
    (loadDictionary (fun _ => none)
      (DictionarySource.inlineTerms [str "zzzqqq"] (some 1))).terms ≠ [] :=
  (C7_dictionariesUsed (fun _ => []) (fun _ => []) (fun _ => none)
    (some cfgUnused) [] false (fun _ => []) (str "hi") (str "hi")).2.1
    (loadDictionary (fun _ => none)
      (DictionarySource.inlineTerms [str "zzzqqq"] (some 1)))
    (by decide)

/-! ## Claim C8 (unknown dictionary source type) -/

/-- C8 counterexample: for a source whose `type` tag is outside the union, the
`switch` body does throw, but the surrounding `catch` inside `loadDictionary`
swallows the error: the call resolves normally with the empty zero-weight
`Error` dictionary instead of propagating the error to the caller. -/
theorem C8_counterexample :
    loadDictionaryBody (fun _ => none)
      (DictionarySource.other (str "bogus") none) =
      Except.error (str "Unsupported dictionary source type: " ++ str "bogus") ∧
    loadDictionary (fun _ => none) (DictionarySource.other (str "bogus") none) =
      Dictionary.mk (str "Error") [] 0 := by
  exact ⟨rfl, by decide⟩

/-- C8 (amended): an unknown source type raises inside `loadDictionary`'s
`switch`, but the error is caught there, not propagated: `loadDictionary`
resolves with the empty zero-weight `Error` dictionary, and `loadDictionaries`
filters it out, so a bad source never aborts the loading of the remaining
sources (the per-source isolation the claim ascribes to `loadDictionaries` is
already performed inside `loadDictionary`). -/
theorem C8_unknown_source_swallowed (readFile : JSStr → Option JSStr)
    (tag : JSStr) (w : Option ℚ) (pre post : List DictionarySource)
    (fw : Option ℚ) :
    loadDictionaryBody readFile (DictionarySource.other tag w) =
      Except.error (str "Unsupported dictionary source type: " ++ tag) ∧
    loadDictionary readFile (DictionarySource.other tag w) =
      Dictionary.mk (str "Error") [] 0 ∧
    loadDictionaries readFile
        (DictionaryConfig.mk (pre ++ DictionarySource.other tag w :: post) fw) =
      loadDictionaries readFile (DictionaryConfig.mk (pre ++ post) fw) := by
  refine ⟨rfl, rfl, ?_⟩
  unfold loadDictionaries
  simp only [List.map_append, List.map_cons, List.filter_append,
    List.filter_cons]
  have herr : loadDictionary readFile (DictionarySource.other tag w) =
      Dictionary.mk (str "Error") [] 0 := rfl
  rw [herr]
  simp

/-! ## Claim C5 (score bounds) -/

theorem scoreOK_extractNamedEntities (ner : JSStr → List RawNER) (t : JSStr) :
    ∀ k ∈ extractNamedEntities ner t, 0 < k.score ∧ k.score ≤ 1 := by
  intro k hk
  simp only [extractNamedEntities] at hk
  rw [mem_sortByScoreDesc] at hk
  have hk2 := mem_dedupByKey hk
  simp only [List.mem_map, List.mem_filter, decide_eq_true_eq] at hk2
  obtain ⟨r, ⟨_, hr⟩, rfl⟩ := hk2
  exact ⟨lt_min (lt_trans (by decide) hr) (by decide), min_le_right _ _⟩

theorem scoreOK_extractGeneralKeywords (t : JSStr) :
    ∀ k ∈ extractGeneralKeywords t, 0 < k.score ∧ k.score ≤ 1 := by
  intro k hk
  simp only [extractGeneralKeywords] at hk
  have hk2 := List.mem_of_mem_take hk
  rw [mem_sortByScoreDesc] at hk2
  simp only [List.mem_filterMap] at hk2
  obtain ⟨wc, _, heq⟩ := hk2
  split at heq
  · rename_i hth
    cases heq
    exact ⟨lt_min (lt_trans (by decide) hth) (by decide), min_le_right _ _⟩
  · exact absurd heq (by simp)

theorem calcKG_bounds (e : KGEntity) :
    0 < calculateKnowledgeGraphScore e ∧ calculateKnowledgeGraphScore e ≤ 1 := by
  unfold calculateKnowledgeGraphScore
  refine ⟨lt_min ?_ (by decide), min_le_right _ _⟩
  rw [qadd_eq, qadd_eq]
  have h1 : (0:ℚ) ≤
      (if 100 < e.detailedDescription.length then mkRat 1 10 else 0) := by
    split
    · decide
    · exact le_refl 0
  have h2 : (0:ℚ) ≤
      (if e.etype ∈ [str "Person", str "Organization", str "Place", str "Event",
        str "CreativeWork"] then mkRat 1 10 else 0) := by
    split
    · decide
    · exact le_refl 0
  have h7 : (0:ℚ) < mkRat 7 10 := by decide
  linarith

theorem scoreOK_extractKnowledgeGraphKeywords (kgOn : Bool)
    (fetch : JSStr → List KGEntity) (t : JSStr) :
    ∀ k ∈ extractKnowledgeGraphKeywords kgOn fetch t,
      0 < k.score ∧ k.score ≤ 1 := by
  intro k hk
  simp only [extractKnowledgeGraphKeywords] at hk
  split at hk
  · exact absurd hk (List.not_mem_nil k)
  · split at hk
    · exact absurd hk (List.not_mem_nil k)
    · rw [mem_sortByScoreDesc] at hk
      simp only [List.mem_flatten, List.mem_map] at hk
      obtain ⟨l, ⟨term, _, rfl⟩, hkl⟩ := hk
      simp only [List.mem_filterMap] at hkl
      obtain ⟨e, _, heq⟩ := hkl
      split at heq
      · cases heq
        exact calcKG_bounds e
      · exact absurd heq (by simp)

/-- The sources of a (possibly absent) dictionary configuration. -/
def cfgSources : Option DictionaryConfig → List DictionarySource
  | some c => c.dictionaries
  | none => []

theorem foldl_dictScore_nonneg (word : JSStr) :
    ∀ (ds : List Dictionary) (acc : ℚ × List JSStr), 0 ≤ acc.1 →
      (∀ d ∈ ds, 0 < d.weight) →
      0 ≤ (ds.foldl (fun acc d =>
        if d.terms.contains (toLowerStr word) then
          (qadd acc.1 d.weight, acc.2 ++ [d.name])
        else acc) acc).1 := by
  intro ds
  induction ds with
  | nil => intro acc hacc _; exact hacc
  | cons d ds ih =>
    intro acc hacc hw
    simp only [List.foldl_cons]
    refine ih _ ?_ (fun e he => hw e (List.mem_cons_of_mem _ he))
    by_cases hc : d.terms.contains (toLowerStr word) = true
    · rw [if_pos hc]
      show 0 ≤ qadd acc.1 d.weight
      rw [qadd_eq]
      exact add_nonneg hacc (le_of_lt (hw d (List.mem_cons_self _ _)))
    · rw [if_neg hc]
      exact hacc

theorem getDictionaryScore_fst_nonneg (word : JSStr) (dicts : List Dictionary)
    (hw : ∀ d ∈ dicts, 0 < d.weight) : 0 ≤ (getDictionaryScore word dicts).1 := by
  unfold getDictionaryScore
  exact foldl_dictScore_nonneg word dicts (0, []) (le_refl 0) hw

theorem scoreOK_extractNamedEntitiesDict (ner : JSStr → List RawNER)
    (dicts : List Dictionary) (t : JSStr) (hw : ∀ d ∈ dicts, 0 < d.weight) :
    ∀ k ∈ extractNamedEntitiesDict ner dicts t, 0 < k.score ∧ k.score ≤ 1 := by
  intro k hk
  simp only [extractNamedEntitiesDict] at hk
  rw [mem_sortByScoreDesc] at hk
  have hk2 := mem_dedupByKey hk
  simp only [List.mem_map, List.mem_filter, decide_eq_true_eq] at hk2
  obtain ⟨r, ⟨_, hr⟩, rfl⟩ := hk2
  refine ⟨lt_min ?_ (by decide), min_le_right _ _⟩
  show (0:ℚ) < qadd r.score (qmul (getDictionaryScore r.word dicts).1 (mkRat 3 10))
  rw [qadd_eq, qmul_eq]
  have hds := getDictionaryScore_fst_nonneg r.word dicts hw
  have hb : (0:ℚ) < r.score := lt_trans (by decide) hr
  have hnn : (0:ℚ) ≤ (getDictionaryScore r.word dicts).1 * mkRat 3 10 :=
    mul_nonneg hds (by decide)
  linarith

theorem scoreOK_extractGeneralKeywordsDict (dicts : List Dictionary) (t : JSStr) :
    ∀ k ∈ extractGeneralKeywordsDict dicts t, 0 < k.score ∧ k.score ≤ 1 := by
  intro k hk
  simp only [extractGeneralKeywordsDict] at hk
  have hk2 := List.mem_of_mem_take hk
  rw [mem_sortByScoreDesc] at hk2
  simp only [List.mem_filterMap] at hk2
  obtain ⟨wc, _, heq⟩ := hk2
  split at heq
  · rename_i hth
    cases heq
    exact ⟨lt_min (lt_trans (by decide) hth) (by decide), min_le_right _ _⟩
  · exact absurd heq (by simp)

theorem scoreOK_extractDictionaryKeywords (t : JSStr) (dicts : List Dictionary)
    (hw : ∀ d ∈ dicts, 0 < d.weight) :
    ∀ k ∈ extractDictionaryKeywords t dicts, 0 < k.score ∧ k.score ≤ 1 := by
  intro k hk
  unfold extractDictionaryKeywords at hk
  rw [mem_sortByScoreDesc] at hk
  simp only [List.mem_flatten, List.mem_map] at hk
  obtain ⟨l, ⟨d, hd, rfl⟩, hkl⟩ := hk
  simp only [List.mem_filterMap] at hkl
  obtain ⟨term, _, heq⟩ := hkl
  split at heq
  · cases heq
    refine ⟨lt_min ?_ (by decide), min_le_right _ _⟩
    show (0:ℚ) < qmul (qadd (qmul (min (qdivN (term.length : ℚ) 15) 1)
      (mkRat 3 5)) (qmul d.weight (mkRat 2 5))) (mkRat 4 5)
    rw [qmul_eq, qadd_eq, qmul_eq, qmul_eq]
    have hls : (0:ℚ) ≤ min (qdivN (term.length : ℚ) 15) 1 := by
      refine le_min ?_ (by decide)
      rw [qdivN_eq]
      positivity
    have h1 : (0:ℚ) ≤ min (qdivN (term.length : ℚ) 15) 1 * mkRat 3 5 :=
      mul_nonneg hls (by decide)
    have h2 : (0:ℚ) < d.weight * mkRat 2 5 :=
      mul_pos (hw d hd) (by decide)
    have h3 : (0:ℚ) < mkRat 4 5 := by decide
    positivity
  · exact absurd heq (by simp)

theorem loadDictionaries_weight_pos (readFile : JSStr → Option JSStr)
    (c : DictionaryConfig)
    (h : ∀ src ∈ c.dictionaries, 0 < jsWeightOr1 src.weightOf) :
    ∀ d ∈ loadDictionaries readFile c, 0 < d.weight := by
  intro d hd
  simp only [loadDictionaries, List.mem_filter, List.mem_map] at hd
  obtain ⟨⟨src, hsrc, rfl⟩, hne⟩ := hd
  unfold loadDictionary at hne ⊢
  cases hb : loadDictionaryBody readFile src with
  | ok p =>
    obtain ⟨name, terms⟩ := p
    exact h src hsrc
  | error e =>
    rw [hb] at hne
    simp at hne

/-- The weights of all dictionaries a call works with, positive provided all
configured weights are. -/
theorem allDicts_weight_pos (readFile : JSStr → Option JSStr)
    (config : Option DictionaryConfig) (dynDicts : List Dictionary)
    (hcfg : ∀ src ∈ cfgSources config, 0 < jsWeightOr1 src.weightOf)
    (hdyn : ∀ d ∈ dynDicts, 0 < d.weight) :
    ∀ d ∈ staticDictsOf readFile config ++ dynDicts, 0 < d.weight := by
  intro d hd
  rcases List.mem_append.mp hd with hd | hd
  · cases config with
    | none => exact absurd hd (List.not_mem_nil d)
    | some c => exact loadDictionaries_weight_pos readFile c hcfg d hd
  · exact hdyn d hd

/-- A dictionary configuration carrying a negative inline weight, reachable
through the `weight?: number` field of `DictionarySource`. -/
def cfgNegative : DictionaryConfig :=
  DictionaryConfig.mk
    [DictionarySource.inlineTerms [str "the"] (some (mkRat (-2) 1))] none

/-- C5 counterexample: with an inline dictionary of weight `-2` whose term
`"the"` matches the transcript `"the"`, the extraction returns a keyword with
the negative score `-68/125`, violating `0 < score`. -/
theorem C5_counterexample :
    (extractKeywordsFromTranscriptDict (fun _ => []) (fun _ => none)
      (some cfgNegative) [] (str "the")).keywords =
      [Keyword.mk (str "The") (str "DICTIONARY") (mkRat (-68) 125)
        (some [str "Inline Dictionary"])] ∧
    ¬(0 < (mkRat (-68) 125 : ℚ)) := by
  exact ⟨by decide, by decide⟩

/-- C5 (amended): every keyword of the base extractor has a score in `(0, 1]`
for every transcript and every external collaborator behaviour; the same holds
for the dictionary-enabled extractor provided all configured dictionary
weights (and all dynamically loaded ones) are positive, as the spec's data
model requires.  A negative configured weight can break the lower bound. -/
theorem C5_score_bounds (ner nerD : JSStr → List RawNER) (kgOn : Bool)
    (fetch : JSStr → List KGEntity) (readFile : JSStr → Option JSStr)
    (config : Option DictionaryConfig) (dynDicts : List Dictionary)
    (t u : JSStr)
    (hcfg : ∀ src ∈ cfgSources config, 0 < jsWeightOr1 src.weightOf)
    (hdyn : ∀ d ∈ dynDicts, 0 < d.weight) :
    (∀ k ∈ (extractKeywordsFromTranscript ner kgOn fetch t).keywords,
      0 < k.score ∧ k.score ≤ 1) ∧
    (∀ k ∈ (extractKeywordsFromTranscriptDict nerD readFile config dynDicts
        u).keywords, 0 < k.score ∧ k.score ≤ 1) := by
  constructor
  · intro k hk
    simp only [extractKeywordsFromTranscript] at hk
    rcases mem_combineKeywords hk with hk2 | hk2
    · rcases mem_combineKeywords hk2 with hk3 | hk3
      · exact scoreOK_extractNamedEntities _ _ k hk3
      · exact scoreOK_extractGeneralKeywords _ k hk3
    · exact scoreOK_extractKnowledgeGraphKeywords _ _ _ k hk2
  · intro k hk
    have hw := allDicts_weight_pos readFile config dynDicts hcfg hdyn
    simp only [extractKeywordsFromTranscriptDict] at hk
    rcases mem_combineKeywords hk with hk2 | hk2
    · rcases mem_combineKeywords hk2 with hk3 | hk3
      · exact scoreOK_extractNamedEntitiesDict _ _ _ hw k hk3
      · exact scoreOK_extractGeneralKeywordsDict _ _ k hk3
    · exact scoreOK_extractDictionaryKeywords _ _ hw k hk2

/-- C5 witness: the bounds instantiated on the concrete keyword the base
extractor produces for the transcript `"react"`. -/
theorem C5_witness :
    0 < (Keyword.mk (str "React") (str "KEYWORD") (mkRat 233 400)
      (some [str "General"])).score ∧
    (Keyword.mk (str "React") (str "KEYWORD") (mkRat 233 400)
      (some [str "General"])).score ≤ 1 :=
  (C5_score_bounds (fun _ => []) (fun _ => []) false (fun _ => [])
    (fun _ => none) none [] (str "react") (str "")
    (by intro src hsrc; exact absurd hsrc (List.not_mem_nil src))
    (by intro d hd; exact absurd hd (List.not_mem_nil d))).1
    (Keyword.mk (str "React") (str "KEYWORD") (mkRat 233 400)
      (some [str "General"])) (by decide)

/-! ## Claim C9 (`processLongTranscript`) -/

/-- Maximum of two optional indices, `none` as neutral. -/
def omax : Option ℕ → Option ℕ → Option ℕ
  | none, b => b
  | some i, none => some i
  | some i, some j => some (max i j)

theorem lastPosP_or (p q : Char → Bool) :
    ∀ s : JSStr,
      lastPosP (fun c => p c || q c) s = omax (lastPosP p s) (lastPosP q s) := by
  intro s
  induction s with
  | nil => rfl
  | cons c rest ih =>
    simp only [lastPosP, ih]
    cases hp : lastPosP p rest with
    | some i =>
      cases hq : lastPosP q rest with
      | some j =>
        simp only [omax]
        rw [Nat.succ_max_succ]
      | none =>
        by_cases hqc : q c = true
        · simp [omax, hqc]
        · rw [Bool.not_eq_true] at hqc
          simp [omax, hqc]
    | none =>
      cases hq : lastPosP q rest with
      | some j =>
        by_cases hpc : p c = true
        · simp [omax, hpc]
        · rw [Bool.not_eq_true] at hpc
          simp [omax, hpc]
      | none =>
        by_cases hpc : p c = true
        · by_cases hqc : q c = true
          · simp [omax, hpc, hqc]
          · rw [Bool.not_eq_true] at hqc
            simp [omax, hpc, hqc]
        · rw [Bool.not_eq_true] at hpc
          by_cases hqc : q c = true
          · simp [omax, hpc, hqc]
          · rw [Bool.not_eq_true] at hqc
            simp [omax, hpc, hqc]

theorem optIdx_omax (a b : Option ℕ) :
    optIdx (omax a b) = max (optIdx a) (optIdx b) := by
  cases a with
  | none =>
    cases b with
    | none => simp [omax, optIdx]
    | some j =>
      simp only [omax, optIdx]
      exact (max_eq_right (le_trans (by norm_num) (Int.natCast_nonneg j))).symm
  | some i =>
    cases b with
    | none =>
      simp only [omax, optIdx]
      exact (max_eq_left (le_trans (by norm_num) (Int.natCast_nonneg i))).symm
    | some j =>
      simp only [omax, optIdx]
      exact_mod_cast Nat.cast_max i j

theorem lastEnd_eq (s : JSStr) :
    max (max (jsLastIndexOf s '.') (jsLastIndexOf s '!')) (jsLastIndexOf s '?') =
      optIdx (lastPosP isSentPunct s) := by
  have h1 : isSentPunct = fun c =>
      ((fun d => decide (d = '.')) c || (fun d => decide (d = '!')) c) ||
        (fun d => decide (d = '?')) c := by
    funext c
    simp [isSentPunct]
  unfold jsLastIndexOf
  rw [← optIdx_omax, ← optIdx_omax, ← lastPosP_or, ← lastPosP_or, h1]

theorem chunkStep_fst_ne_nil :
    ∀ (l : List JSStr) (acc : List JSStr × JSStr),
      (∀ c ∈ acc.1, c ≠ []) → ∀ c ∈ (l.foldl chunkStep acc).1, c ≠ [] := by
  intro l
  induction l with
  | nil => intro acc h; exact h
  | cons s l ih =>
    intro acc h
    refine ih (chunkStep acc s) ?_
    intro c hc
    obtain ⟨chunks, cur⟩ := acc
    simp only [chunkStep] at hc
    split at hc
    · split at hc
      · exact h c hc
      · rename_i hcur
        rcases List.mem_append.mp hc with hc2 | hc2
        · exact h c hc2
        · rw [List.mem_singleton.mp hc2]; exact hcur
    · exact h c hc

theorem pltChunks_ne_nil (t : JSStr) : ∀ c ∈ pltChunks t, c ≠ [] := by
  intro c hc
  simp only [pltChunks] at hc
  split at hc
  · exact chunkStep_fst_ne_nil (pltSentences t) ([], [])
      (fun x hx => absurd hx (List.not_mem_nil x)) c hc
  · rename_i hcur
    rcases List.mem_append.mp hc with hc2 | hc2
    · exact chunkStep_fst_ne_nil (pltSentences t) ([], [])
        (fun x hx => absurd hx (List.not_mem_nil x)) c hc2
    · rw [List.mem_singleton.mp hc2]; exact hcur

/-- C9: `processLongTranscript` (a) returns transcripts of at most 50,000
characters unchanged; for longer ones it (b) returns a string of at most
50,000 characters, (c) always includes the final sentence-chunk in the sampled
chunk sequence, and (d) when the sampled concatenation must be truncated, it
cuts right after the last sentence-ending punctuation of the 50,000-character
window whenever that punctuation sits strictly inside the final 20% of the
window, and at the bare 50,000-character mark otherwise. -/
theorem C9_processLongTranscript (t : JSStr) :
    (t.length ≤ 50000 → processLongTranscript t = t) ∧
    (50000 < t.length →
      (processLongTranscript t).length ≤ 50000 ∧
      (∀ c, (pltChunks t).getLast? = some c → c ∈ pltSampledChunks t) ∧
      (50000 < (pltSampled t).length →
        processLongTranscript t =
          match lastPosP isSentPunct ((pltSampled t).take 50000) with
          | some i =>
            if 40000 < i then ((pltSampled t).take 50000).take (i + 1)
            else (pltSampled t).take 50000
          | none => (pltSampled t).take 50000)) := by
  constructor
  · intro h
    unfold processLongTranscript
    rw [if_pos h]
  · intro h
    have hne : ¬(t.length ≤ 50000) := not_le.mpr h
    refine ⟨?_, ?_, ?_⟩
    · simp only [processLongTranscript]
      rw [if_neg hne]
      split
    -- within budget already
      · rename_i hs; exact hs
      · split
        · rw [List.length_take]
          refine le_trans (min_le_right _ _) ?_
          rw [List.length_take]
          exact min_le_left _ _
        · rw [List.length_take]
          exact min_le_left _ _
    · intro c hc
      simp only [pltSampledChunks]
      split
      · exact mem_of_getLast? hc
      · rw [hc]
        have hcne : c ≠ [] := pltChunks_ne_nil t c (mem_of_getLast? hc)
        by_cases hmem :
            c ∈ sampleIdx (pltChunks t) ((pltChunks t).length / 5) 0 []
        · show c ∈
            (if c ≠ [] ∧
                c ∉ sampleIdx (pltChunks t) ((pltChunks t).length / 5) 0 [] then
              sampleIdx (pltChunks t) ((pltChunks t).length / 5) 0 [] ++ [c]
            else sampleIdx (pltChunks t) ((pltChunks t).length / 5) 0 [])
          rw [if_neg (fun hcontra => hcontra.2 hmem)]
          exact hmem
        · show c ∈
            (if c ≠ [] ∧
                c ∉ sampleIdx (pltChunks t) ((pltChunks t).length / 5) 0 [] then
              sampleIdx (pltChunks t) ((pltChunks t).length / 5) 0 [] ++ [c]
            else sampleIdx (pltChunks t) ((pltChunks t).length / 5) 0 [])
          rw [if_pos ⟨hcne, hmem⟩]
          exact List.mem_append.mpr (Or.inr (List.mem_singleton.mpr rfl))
    · intro hs
      simp only [processLongTranscript]
      rw [if_neg hne, if_neg (not_le.mpr hs), lastEnd_eq]
      cases hlp : lastPosP isSentPunct ((pltSampled t).take 50000) with
      | none =>
        rw [if_neg (by norm_num [optIdx] : ¬((40000:ℤ) < optIdx none))]
      | some i =>
        have hoi : optIdx (some i) = (i : ℤ) := rfl
        by_cases hi : 40000 < i
        · rw [if_pos (by rw [hoi]; exact_mod_cast hi)]
          show List.take ((optIdx (some i)).toNat + 1)
              (List.take 50000 (pltSampled t)) =
            if 40000 < i then
              List.take (i + 1) (List.take 50000 (pltSampled t))
            else List.take 50000 (pltSampled t)
          rw [if_pos hi, hoi, Int.toNat_natCast]
        · rw [if_neg (by rw [hoi]; exact_mod_cast hi)]
          show List.take 50000 (pltSampled t) =
            if 40000 < i then
              List.take (i + 1) (List.take 50000 (pltSampled t))
            else List.take 50000 (pltSampled t)
          rw [if_neg hi]

/-- C9 witness: a short transcript passes through unchanged. -/
theorem C9_witness :
    processLongTranscript (str "A short transcript.") =
      str "A short transcript." :=
  (C9_processLongTranscript (str "A short transcript.")).1 (by decide)

end YtIndex
